import Mathlib

set_option maxHeartbeats 1000000

/- Shallow embedding of the pick-path routing engine of the picking-routes
repository (src/backend/utils.py and the location-resolution / route-assembly
logic of src/backend/server.py).  Positions are integer (row, column) pairs;
the grid is a list of rows of cell states (0 = walkable, 1 = blocked). -/

abbrev Pos : Type := Int × Int

/-- The 10 x 20 all-walkable grid the layout construction starts from. -/
def emptyLayout : List (List Nat) := List.replicate 10 (List.replicate 20 0)

/-- Assign value v to cell (r, c) of the grid, as the Python loops do. -/
def setCell (g : List (List Nat)) (r c v : Nat) : List (List Nat) :=
  g.set r ((g.getD r []).set c v)

/-- Horizontal walls: rows 1, 3, 5, 7 blocked at columns 2..17. -/
def layoutWalls : List (List Nat) :=
  (List.range' 2 16).foldl
    (fun g j => setCell (setCell (setCell (setCell g 1 j 1) 3 j 1) 5 j 1) 7 j 1)
    emptyLayout

/-- Vertical walls: columns 0 and 19 blocked in every row. -/
def layoutBorders : List (List Nat) :=
  (List.range 10).foldl (fun g i => setCell (setCell g i 0 1) i 19 1) layoutWalls

/-- The warehouse layout of utils.py, with the two openings at (7,10), (3,10). -/
def layout : List (List Nat) := setCell (setCell layoutBorders 7 10 0) 3 10 0

/-- The fixed picker origin, utils.py line 8. -/
def starting_point : Pos := (9, 10)

/-- The shelf registry of utils.py (a Python dict, embedded as an
association list with distinct keys). -/
def shelves : List (String × Pos) :=
  [("start", starting_point),
   ("A1", (0, 1)), ("A2", (1, 1)), ("A3", (2, 1)), ("A4", (3, 1)), ("A5", (4, 1)),
   ("A6", (5, 1)), ("A7", (6, 1)), ("A8", (7, 1)), ("A9", (8, 1)), ("A10", (9, 1)),
   ("B1", (0, 3)), ("B2", (0, 4)), ("B3", (0, 5)), ("B4", (0, 6)), ("B5", (0, 7)),
   ("B6", (0, 8)), ("B7", (0, 9)), ("B8", (0, 10)), ("B9", (0, 11)), ("B10", (0, 12)),
   ("C1", (4, 11)), ("C2", (4, 12)), ("C3", (4, 13)), ("C4", (4, 14)), ("C5", (4, 15)),
   ("C6", (4, 16)),
   ("D1", (8, 3)), ("D2", (8, 4)), ("D3", (8, 5)), ("D4", (8, 6)),
   ("E1", (0, 18)), ("E2", (1, 18)), ("E3", (2, 18)), ("E4", (3, 18)), ("E5", (4, 18)),
   ("E6", (5, 18)), ("E7", (6, 18)), ("E8", (7, 18)), ("E9", (8, 18)), ("E10", (9, 18))]

/-- rows = len(layout). -/
def rowsOf (grid : List (List Nat)) : Nat := grid.length

/-- cols = len(layout[0]). -/
def colsOf (grid : List (List Nat)) : Nat := (grid.headD []).length

/-- layout[r][c]; the algorithm only reads cells after an in-bounds check, so
the out-of-range default is never observed. -/
def cellAt (grid : List (List Nat)) (r c : Int) : Nat :=
  (grid.getD r.toNat []).getD c.toNat 1

/-- 0 <= row < rows and 0 <= col < cols. -/
def inBoundsB (grid : List (List Nat)) (p : Pos) : Bool :=
  decide (0 ≤ p.1) && decide (p.1 < (rowsOf grid : Int)) &&
  decide (0 ≤ p.2) && decide (p.2 < (colsOf grid : Int))

/-- In bounds and on a walkable (0) cell: the neighbor admission test of
get_neighbors. -/
def okCell (grid : List (List Nat)) (p : Pos) : Bool :=
  inBoundsB grid p && (cellAt grid p.1 p.2 == 0)

/-- Manhattan distance, utils.py line 111. -/
def heuristic (a b : Pos) : Nat := (a.1 - b.1).natAbs + (a.2 - b.2).natAbs

/-- get_neighbors, utils.py lines 113-125: the loop over the literal offset
list [(-1,0), (1,0), (0,-1), (0,1)] unrolled in source order; a candidate is
appended when in bounds and walkable. -/
def get_neighbors (grid : List (List Nat)) (p : Pos) : List Pos :=
  (if okCell grid (p.1 - 1, p.2) then [((p.1 - 1, p.2) : Pos)] else []) ++
  (if okCell grid (p.1 + 1, p.2) then [((p.1 + 1, p.2) : Pos)] else []) ++
  (if okCell grid (p.1, p.2 - 1) then [((p.1, p.2 - 1) : Pos)] else []) ++
  (if okCell grid (p.1, p.2 + 1) then [((p.1, p.2 + 1) : Pos)] else [])

/-- Dictionary lookup on an association list (Python dict access). -/
def alook {α β : Type} [DecidableEq α] : List (α × β) → α → Option β
  | [], _ => none
  | (a, b) :: r, k => if a = k then some b else alook r k

/-- Dictionary assignment: replace any binding of k by v. -/
def aset {α β : Type} [DecidableEq α] (l : List (α × β)) (k : α) (v : β) :
    List (α × β) :=
  (k, v) :: l.filter (fun e => decide (e.1 ≠ k))

/-- The strict order heapq uses on (f_score, position) entries: lexicographic
on the f value, then the row, then the column.  Entries with equal keys are
identical tuples, so which copy heappop returns is unobservable. -/
def keyLt (a b : Nat × Pos) : Bool :=
  decide (a.1 < b.1) ||
    (a.1 == b.1 && (decide (a.2.1 < b.2.1) ||
      (a.2.1 == b.2.1 && decide (a.2.2 < b.2.2))))

/-- Least entry of the heap (first occurrence among equals). -/
def findMinEntry : List (Nat × Pos) → Option (Nat × Pos)
  | [] => none
  | a :: r =>
    match findMinEntry r with
    | none => some a
    | some m => if keyLt m a then some m else some a

/-- heapq.heappop on the open set viewed as a multiset of entries. -/
def popMin (l : List (Nat × Pos)) : Option ((Nat × Pos) × List (Nat × Pos)) :=
  match findMinEntry l with
  | none => none
  | some m => some (m, l.erase m)

/-- The mutable state of the A* main loop. -/
structure AState where
  openSet : List (Nat × Pos)
  cameFrom : List (Pos × Pos)
  gScore : List (Pos × Nat)
  fScore : List (Pos × Nat)

/-- One iteration of the inner for-loop of utils.py lines 147-154: relax the
edge from the popped cell cur to the neighbor nb.  The g_score of cur is
always present when this runs (cur came off the open set). -/
def relaxNeighbor (grid : List (List Nat)) (goal cur : Pos) (st : AState)
    (nb : Pos) : AState :=
  let t := (alook st.gScore cur).getD 0 + 1
  let doUpd : Bool :=
    match alook st.gScore nb with
    | none => true
    | some gn => decide (t < gn)
  if doUpd then
    { openSet := (t + heuristic nb goal, nb) :: st.openSet
      cameFrom := aset st.cameFrom nb cur
      gScore := aset st.gScore nb t
      fScore := aset st.fScore nb (t + heuristic nb goal) }
  else st

/-- Path reconstruction, utils.py lines 139-145: walk the came_from chain
back from the goal, then append the start and reverse.  The while loop is
given fuel one larger than the size of came_from; the chain is acyclic so
this is always enough. -/
def reconstructPath (cf : List (Pos × Pos)) (start : Pos) :
    Nat → Pos → List Pos → Option (List Pos)
  | 0, _, _ => none
  | fuel + 1, cur, acc =>
    match alook cf cur with
    | some prev => reconstructPath cf start fuel prev (cur :: acc)
    | none => some (start :: acc)

/-- The A* main loop, utils.py lines 135-156, as a fueled recursion; none
marks fuel exhaustion, which the fuel bound proved below rules out. -/
def aStarLoop (grid : List (List Nat)) (start goal : Pos) :
    Nat → AState → Option (List Pos)
  | 0, _ => none
  | fuel + 1, st =>
    match popMin st.openSet with
    | none => some []
    | some (entry, rest) =>
      if entry.2 = goal then
        reconstructPath st.cameFrom start (st.cameFrom.length + 1) goal []
      else
        aStarLoop grid start goal fuel
          ((get_neighbors grid entry.2).foldl (relaxNeighbor grid goal entry.2)
            { st with openSet := rest })

/-- Fuel that provably dominates the loop's termination measure. -/
def aStarFuel (grid : List (List Nat)) : Nat :=
  rowsOf grid * colsOf grid * (rowsOf grid * colsOf grid + 1) + 2

/-- The endpoint validity test of utils.py lines 96-107, in source order. -/
def endpointsInvalid (grid : List (List Nat)) (s g : Pos) : Bool :=
  decide (s.1 < 0) || decide ((rowsOf grid : Int) ≤ s.1) ||
  decide (s.2 < 0) || decide ((colsOf grid : Int) ≤ s.2) ||
  decide (g.1 < 0) || decide ((rowsOf grid : Int) ≤ g.1) ||
  decide (g.2 < 0) || decide ((colsOf grid : Int) ≤ g.2) ||
  (cellAt grid s.1 s.2 == 1) || (cellAt grid g.1 g.2 == 1)

/-- a_star_pathfinding, utils.py lines 74-156. -/
def a_star_pathfinding (start goal : Pos) (grid : List (List Nat)) :
    Option (List Pos) :=
  if start = goal then some [start]
  else if endpointsInvalid grid start goal then some []
  else
    aStarLoop grid start goal (aStarFuel grid)
      { openSet := [(0, start)], cameFrom := [], gScore := [(start, 0)],
        fScore := [(start, heuristic start goal)] }

/-- Two cells differ by exactly one step in one cardinal direction. -/
def stepAdj (p q : Pos) : Bool :=
  ((p.1 - q.1).natAbs + (p.2 - q.2).natAbs == 1)

/-- Every consecutive pair moves to an admissible neighbor. -/
def chainB (grid : List (List Nat)) : Pos → List Pos → Bool
  | _, [] => true
  | p, q :: r => (get_neighbors grid p).contains q && chainB grid q r

/-- Executable walk checker: l is a walk from s to t on walkable cells of the
grid, moving one cardinal step at a time. -/
def isPathB (grid : List (List Nat)) (s t : Pos) (l : List Pos) : Bool :=
  match l with
  | [] => false
  | a :: r =>
    (a == s) && okCell grid a && chainB grid a r && (List.getLastD r a == t)

/-- t is reachable from s in exactly n admissible steps. -/
inductive ReachN (grid : List (List Nat)) (s : Pos) : Pos → Nat → Prop
  | refl : ReachN grid s s 0
  | tail {u v : Pos} {n : Nat} :
      ReachN grid s u n → v ∈ get_neighbors grid u → ReachN grid s v (n + 1)

/-- l is a concrete walk from s to t, built back to front. -/
inductive PathList (grid : List (List Nat)) (s : Pos) : Pos → List Pos → Prop
  | single : PathList grid s s [s]
  | snoc {u v : Pos} {l : List Pos} :
      PathList grid s u l → v ∈ get_neighbors grid u → PathList grid s v (l ++ [v])

/-- n is the exact shortest-walk step count from s to t. -/
def IsMinReach (grid : List (List Nat)) (s t : Pos) (n : Nat) : Prop :=
  ReachN grid s t n ∧ ∀ m, ReachN grid s t m → n ≤ m

/-- Python-float distance entries of the matrix: a finite step count or
float(inf) for an unreachable pair. -/
inductive PDist : Type
  | inf : PDist
  | fin : Nat → PDist
deriving DecidableEq

/-- path_distance, utils.py lines 164-169: len(path) - 1, or infinity when
the path is empty. -/
def path_distance (s g : Pos) : Option PDist :=
  match a_star_pathfinding s g layout with
  | none => none
  | some [] => some PDist.inf
  | some p => some (PDist.fin (p.length - 1))

/-- create_distance_matrix_with_pathfinding, utils.py lines 159-171. -/
def create_distance_matrix_with_pathfinding (locations : List Pos) :
    Option (List (List PDist)) :=
  locations.mapM (fun a => locations.mapM (fun b => path_distance a b))

/-- create_distance_matrix, utils.py lines 174-176. -/
def create_distance_matrix (locations : List Pos) : Option (List (List PDist)) :=
  create_distance_matrix_with_pathfinding locations

/-- distance_callback, utils.py lines 191-192: int(d * 100).  On a finite
entry this is the exact scaled integer; on float(inf) the int() conversion
raises OverflowError. -/
def int100 : PDist → Except String Int
  | PDist.inf => Except.error "OverflowError: cannot convert float infinity to integer"
  | PDist.fin n => Except.ok ((n : Int) * 100)

/-- Matrix entry access dist_matrix[i][j]. -/
def matEntry (m : List (List PDist)) (i j : Nat) : PDist :=
  (m.getD i []).getD j PDist.inf

/-- Modelled from the spec: the OR-Tools routing solver (pywrapcp, external
to src/) evaluates the registered transit callback on candidate arcs while
running the PATH_CHEAPEST_ARC first-solution strategy; each evaluation is
distance_callback, so an infinite entry raises. -/
def arcCosts (m : List (List PDist)) (cur : Nat) :
    List Nat → Except String (List (Nat × Int))
  | [] => Except.ok []
  | c :: cs =>
    match int100 (matEntry m cur c) with
    | Except.error e => Except.error e
    | Except.ok k =>
      match arcCosts m cur cs with
      | Except.error e => Except.error e
      | Except.ok rest => Except.ok ((c, k) :: rest)

/-- Modelled from the spec: the PATH_CHEAPEST_ARC construction heuristic of
the external solver, a deterministic cheapest-arc-first greedy walk that
visits every node once and closes the tour at the depot (spec sections 4.4
and 9: the solver always returns to the depot). -/
def greedyGo (m : List (List PDist)) :
    Nat → Nat → List Nat → List Nat → Except String (List Nat)
  | 0, _, _, acc => Except.ok (acc.reverse ++ [0])
  | fuel + 1, cur, remaining, acc =>
    match remaining with
    | [] => Except.ok (acc.reverse ++ [0])
    | _ :: _ =>
      match arcCosts m cur remaining with
      | Except.error e => Except.error e
      | Except.ok costs =>
        match costs.argmin Prod.snd with
        | none => Except.ok (acc.reverse ++ [0])
        | some pr => greedyGo m fuel pr.1 (remaining.erase pr.1) (pr.1 :: acc)

/-- Modelled from the spec: the whole external solve; none is the solver
reporting no feasible tour (spec section 4.4, failure case). -/
def solverRoute (m : List (List PDist)) (n : Nat) :
    Option (Except String (List Nat)) :=
  if n = 0 then none
  else some ((greedyGo m (n - 1) 0 (List.range' 1 (n - 1)) []).map
    (fun r => 0 :: r))

/-- solve_tsp, utils.py lines 186-212, over the modelled solver: build the
matrix, run the solver, return [] when there is no solution, and otherwise
read the closed tour off the solution (the final append of the loop at lines
206-211 maps the end index back to the depot node 0). -/
def solve_tsp (locations : List Pos) : Option (Except String (List Nat)) :=
  match create_distance_matrix locations with
  | none => none
  | some m =>
    match solverRoute m locations.length with
    | none => some (Except.ok [])
    | some r => some r

/-- Dict membership + access of server.py list comprehensions. -/
def shelvesLookup (sku : String) : Option Pos := alook shelves sku

/-- The location list api_solve hands to solve_tsp, server.py line 18. -/
def apiSolveLocations (pick_list : List String) : List Pos :=
  starting_point :: pick_list.filterMap shelvesLookup

/-- The location list api_solve_with_paths hands to solve_tsp, server.py
lines 51-53: the literal "sp" is prepended to the pick list before the
registry filter. -/
def apiSolveWithPathsLocations (pick_list : List String) : List Pos :=
  ("sp" :: pick_list).filterMap shelvesLookup

/-- The location list visualize_route resolves, server.py lines 100-105. -/
def visualizeRouteLocations (pick_list : List String) : List Pos :=
  ("sp" :: pick_list).filterMap shelvesLookup

/-- One walking_paths record of api_solve_with_paths, server.py lines 70-77.
Its JSON object carries exactly the keys of segmentRecordKeys. -/
structure Segment where
  fromPos : Pos
  toPos : Pos
  path : List Pos
  distance : Nat
deriving DecidableEq

/-- The keys of the walking_paths dict literal, server.py lines 70-77. -/
def segmentRecordKeys : List String := ["from", "to", "path", "distance"]

/-- distance field: len(path) - 1 if path else 0. -/
def segDist (p : List Pos) : Nat := if p.isEmpty then 0 else p.length - 1

/-- The per-segment assembly loop of api_solve_with_paths, server.py lines
61-80: walk consecutive pairs, record each segment, and accumulate
total_distance only over non-empty paths. -/
def assembleRoute : List Pos → Option (List Segment × Nat)
  | [] => some ([], 0)
  | [_] => some ([], 0)
  | a :: b :: rest =>
    match a_star_pathfinding a b layout with
    | none => none
    | some p =>
      match assembleRoute (b :: rest) with
      | none => none
      | some (segs, tot) =>
        some (Segment.mk a b p (segDist p) :: segs,
              (if p.isEmpty then 0 else p.length - 1) + tot)

/-- Sum of (stored g + 1) over the g_score table, for the loop measure. -/
def gSum (l : List (Pos × Nat)) : Nat := (l.map (fun e => e.2 + 1)).sum

/-- Termination measure of the A* loop: every iteration strictly decreases
it, and aStarFuel dominates its initial value. -/
def measureOf (grid : List (List Nat)) (st : AState) : Nat :=
  st.openSet.length + gSum st.gScore +
    (rowsOf grid * colsOf grid + 1) * (rowsOf grid * colsOf grid - st.gScore.length)

/-- Every cell of the grid is 0 or 1 (true for the shipped layout), so
being non-blocked and being walkable coincide. -/
def cellsBinary (grid : List (List Nat)) : Bool :=
  grid.all (fun row => row.all (fun v => v == 0 || v == 1))

/-- The core invariant of the A* main loop: g values are realized by actual
walks and bounded by the table size, every came_from edge strictly
decreases g, and open-set entries carry keys at least g + h. -/
structure AInvCore (grid : List (List Nat)) (start goal : Pos) (st : AState) :
    Prop where
  gNodup : (st.gScore.map Prod.fst).Nodup
  cfNodup : (st.cameFrom.map Prod.fst).Nodup
  gStart : alook st.gScore start = some 0
  gOk : ∀ v n, alook st.gScore v = some n → okCell grid v = true
  gReach : ∀ v n, alook st.gScore v = some n → ReachN grid start v n
  gBound : ∀ v n, alook st.gScore v = some n → n + 1 ≤ st.gScore.length
  cfLen : st.cameFrom.length + 1 = st.gScore.length
  cfIff : ∀ v, (alook st.cameFrom v).isSome = true ↔
      ((alook st.gScore v).isSome = true ∧ v ≠ start)
  cfEdge : ∀ v u, alook st.cameFrom v = some u → v ∈ get_neighbors grid u ∧
      ∃ gu gv, alook st.gScore u = some gu ∧ alook st.gScore v = some gv ∧
        gu < gv
  openG : ∀ e ∈ st.openSet, (alook st.gScore e.2).isSome = true
  openKey : ∀ e ∈ st.openSet, e.2 ≠ start →
      ∃ gv, alook st.gScore e.2 = some gv ∧ gv + heuristic e.2 goal ≤ e.1
  goalOpen : ∀ n, alook st.gScore goal = some n → ∃ k, (k, goal) ∈ st.openSet

/-- The frontier property, away from an excluded cell: every node that
already holds its optimal g either still has a good open entry or has had
all its neighbors relaxed from it. -/
def FrontierExcept (grid : List (List Nat)) (start goal c : Pos)
    (st : AState) : Prop :=
  ∀ v n, v ≠ c → IsMinReach grid start v n → alook st.gScore v = some n →
    (∃ k, k ≤ n + heuristic v goal ∧ (k, v) ∈ st.openSet) ∨
    (∀ x ∈ get_neighbors grid v, ∃ gx, alook st.gScore x = some gx ∧
      gx ≤ n + 1)

/-- The full invariant: the core plus the frontier property everywhere. -/
structure AInv (grid : List (List Nat)) (start goal : Pos) (st : AState)
    extends AInvCore grid start goal st : Prop where
  frontier : ∀ v n, IsMinReach grid start v n → alook st.gScore v = some n →
      (∃ k, k ≤ n + heuristic v goal ∧ (k, v) ∈ st.openSet) ∨
      (∀ x ∈ get_neighbors grid v, ∃ gx, alook st.gScore x = some gx ∧
        gx ≤ n + 1)

/- ------------------------------------------------------------------ -/
/- Theorems.                                                          -/
/- ------------------------------------------------------------------ -/

/-- C10: every registered shelf position, and the starting point, is
in-bounds on the 10x20 layout and lies on a walkable cell. -/
theorem shelves_walkable :
    okCell layout starting_point = true ∧
    shelves.all (fun kv => okCell layout kv.2) = true := by decide

/-- C4 (code evaluation at the failing input): the solve-with-paths and
visualize-route endpoints prepend the literal "sp", which is not a key of
the shelf registry (the depot is registered as "start"), so the resolved
location list does not begin with the depot; api_solve prepends the depot
directly. -/
theorem depot_not_prepended_sp_key :
    shelvesLookup ("sp") = none ∧
    shelvesLookup ("start") = some starting_point ∧
    apiSolveWithPathsLocations ["A1"] = [(0, 1)] ∧
    visualizeRouteLocations ["A1"] = [(0, 1)] ∧
    apiSolveLocations ["A1"] = [starting_point, (0, 1)] ∧
    starting_point = (9, 10) ∧ ((0 : Int), (1 : Int)) ≠ starting_point := by decide

/-- C6 (code evaluation at the failing input): api_solve always prepends the
depot before the emptiness check, so an empty pick list, or one with only
unknown identifiers, leaves a non-empty location list and the 400 rejection
branch is unreachable; the request proceeds as a success. -/
theorem api_solve_empty_not_rejected :
    apiSolveLocations [] = [starting_point] ∧
    apiSolveLocations ["nope"] = [starting_point] ∧
    ([starting_point] : List Pos) ≠ [] := by decide

/-- C5 counterexample: with start = goal = (0,0), a blocked cell, the
blocked-endpoint clause of the claim demands an empty path, but the code
checks start == goal first and returns the single-element path. -/
theorem a_star_equal_blocked_cex :
    cellAt layout 0 0 = 1 ∧
    a_star_pathfinding (0, 0) (0, 0) layout = some [(0, 0)] := by decide

/-- C5 amended: if start = goal the result is [start] even when the endpoint
is blocked or out of bounds; if start differs from goal and either endpoint
is out of bounds or blocked, the result is the empty path, with no error. -/
theorem a_star_edge_cases (s g : Pos) :
    (s = g → a_star_pathfinding s g layout = some [s]) ∧
    (s ≠ g → endpointsInvalid layout s g = true →
      a_star_pathfinding s g layout = some []) := by
  constructor
  · intro h
    simp [a_star_pathfinding, h]
  · intro h hi
    simp [a_star_pathfinding, h, hi]

/-- C5 witness: the amended statement applied at concrete inputs. -/
theorem a_star_edge_cases_witness :
    a_star_pathfinding (5, 5) (5, 5) layout = some [(5, 5)] ∧
    a_star_pathfinding (0, 0) (0, 1) layout = some [] :=
  ⟨(a_star_edge_cases (5, 5) (5, 5)).1 rfl,
   (a_star_edge_cases (0, 0) (0, 1)).2 (by decide) (by decide)⟩

/-- C9 counterexample: a non-empty returned path may contain a blocked cell,
because the start == goal short-circuit precedes the walkability check. -/
theorem a_star_path_blocked_cell_cex :
    a_star_pathfinding (0, 0) (0, 0) layout = some [(0, 0)] ∧
    okCell layout (0, 0) = false := by decide

/-- C7 counterexample: an unreachable segment is recorded with an empty path
and distance 0, but the walking_paths record has no "found" key at all, so
the segment is not flagged as not found. -/
theorem segment_record_lacks_found_flag :
    assembleRoute [(0, 1), (0, 0)] =
      some ([Segment.mk (0, 1) (0, 0) [] 0], 0) ∧
    ("found" ∈ segmentRecordKeys) = False := by decide

/-- C2 (code evaluation at the failing input): the distance-matrix stage
itself assigns float(inf) to the unreachable pair without raising, but
distance_callback computes int(inf * 100), which raises OverflowError, so
solve_tsp on such a list raises instead of returning a tour. -/
theorem unreachable_pair_raises_overflow :
    create_distance_matrix [(9, 10), (0, 0)] =
      some [[PDist.fin 0, PDist.inf], [PDist.inf, PDist.fin 0]] ∧
    int100 PDist.inf =
      Except.error "OverflowError: cannot convert float infinity to integer" ∧
    solve_tsp [(9, 10), (0, 0)] =
      some (Except.error "OverflowError: cannot convert float infinity to integer") :=
  ⟨by rfl, by rfl, by rfl⟩

/-- C3 counterexample: on two mutually reachable locations the solver's
route visits the depot twice, [0, 1, 0]: the extraction loop appends the end
index, which maps back to node 0, so the result is not duplicate-free. -/
theorem solve_tsp_repeats_depot_cex :
    solve_tsp [(9, 10), (9, 11)] = some (Except.ok [0, 1, 0]) ∧
    ¬ ([0, 1, 0] : List Nat).Nodup :=
  ⟨by rfl, by decide⟩

/-- C7 amended: the accumulated total is the sum of the distances of the
segments whose path was found (non-empty), and a segment with an empty
literal path carries distance 0, so it contributes nothing; there is no
explicit found flag on the record. -/
theorem total_distance_sum_found (locs : List Pos) (segs : List Segment)
    (tot : Nat) (h : assembleRoute locs = some (segs, tot)) :
    tot = ((segs.filter (fun s => !s.path.isEmpty)).map Segment.distance).sum ∧
    ∀ s ∈ segs, s.path.isEmpty = true → s.distance = 0 := by
  induction locs generalizing segs tot with
  | nil =>
    simp only [assembleRoute, Option.some.injEq, Prod.mk.injEq] at h
    obtain ⟨h1, h2⟩ := h
    subst h1; subst h2
    simp
  | cons a rest ih =>
    cases rest with
    | nil =>
      simp only [assembleRoute, Option.some.injEq, Prod.mk.injEq] at h
      obtain ⟨h1, h2⟩ := h
      subst h1; subst h2
      simp
    | cons b rest2 =>
      rw [assembleRoute] at h
      cases hp : a_star_pathfinding a b layout with
      | none => rw [hp] at h; exact absurd h (by simp)
      | some p =>
        rw [hp] at h
        cases hr : assembleRoute (b :: rest2) with
        | none => rw [hr] at h; exact absurd h (by simp)
        | some pr =>
          obtain ⟨segs2, tot2⟩ := pr
          rw [hr] at h
          simp only [Option.some.injEq, Prod.mk.injEq] at h
          obtain ⟨hsegs, htot⟩ := h
          obtain ⟨ihsum, ihzero⟩ := ih segs2 tot2 hr
          subst hsegs; subst htot
          cases hpe : p.isEmpty with
          | true =>
            refine ⟨?_, ?_⟩
            · simp [hpe, ihsum]
            · intro s hs hse
              rcases List.mem_cons.1 hs with hhead | htail
              · subst hhead; simp [segDist, hpe]
              · exact ihzero s htail hse
          | false =>
            refine ⟨?_, ?_⟩
            · simp [hpe, segDist, ihsum]
            · intro s hs hse
              rcases List.mem_cons.1 hs with hhead | htail
              · subst hhead; simp at hse; simp [hse] at hpe
              · exact ihzero s htail hse

/-- C7 witness: the amended statement at a route with one unreachable
segment. -/
theorem total_distance_sum_found_witness :
    (0 : Nat) =
      ((([Segment.mk (0, 1) (0, 0) [] 0]).filter
        (fun s => !s.path.isEmpty)).map Segment.distance).sum ∧
    ∀ s ∈ [Segment.mk ((0 : Int), (1 : Int)) ((0 : Int), (0 : Int)) [] 0],
      s.path.isEmpty = true → s.distance = 0 :=
  total_distance_sum_found [(0, 1), (0, 0)] [Segment.mk (0, 1) (0, 0) [] 0] 0
    (by rfl)

/-- A successful arc-cost evaluation lists one cost per candidate node, in
order. -/
theorem arcCosts_ok_fst (m : List (List PDist)) (cur : Nat) :
    ∀ (cands : List Nat) (costs : List (Nat × Int)),
      arcCosts m cur cands = Except.ok costs → costs.map Prod.fst = cands := by
  intro cands
  induction cands with
  | nil =>
    intro costs h
    simp only [arcCosts, Except.ok.injEq] at h
    rw [← h]; rfl
  | cons c cs ih =>
    intro costs h
    rw [arcCosts] at h
    cases hi : int100 (matEntry m cur c) with
    | error e => rw [hi] at h; exact absurd h (by simp)
    | ok k =>
      rw [hi] at h
      cases hr : arcCosts m cur cs with
      | error e => rw [hr] at h; exact absurd h (by simp)
      | ok rest =>
        rw [hr] at h
        simp only [Except.ok.injEq] at h
        rw [← h]
        simp [ih rest hr]

/-- A successful greedy construction appends, after the accumulator, a visit
sequence that is a permutation of the remaining nodes, closed by the depot. -/
theorem greedyGo_ok (m : List (List PDist)) :
    ∀ (n : Nat) (rem : List Nat) (cur : Nat) (acc res : List Nat),
      n = rem.length → greedyGo m n cur rem acc = Except.ok res →
      ∃ visits, res = acc.reverse ++ visits ++ [0] ∧ visits.Perm rem := by
  intro n
  induction n with
  | zero =>
    intro rem cur acc res hlen h
    have hrem : rem = [] := by
      cases rem with
      | nil => rfl
      | cons a b => simp at hlen
    subst hrem
    simp only [greedyGo, Except.ok.injEq] at h
    exact ⟨[], by simp [← h], List.Perm.refl []⟩
  | succ k ih =>
    intro rem cur acc res hlen h
    cases rem with
    | nil => simp at hlen
    | cons r rs =>
      rw [greedyGo] at h
      cases hc : arcCosts m cur (r :: rs) with
      | error e => simp [hc] at h
      | ok costs =>
        simp only [hc] at h
        have hfst := arcCosts_ok_fst m cur (r :: rs) costs hc
        have hcne : costs ≠ [] := by
          intro hcnil
          rw [hcnil] at hfst
          simp at hfst
        cases ha : costs.argmin Prod.snd with
        | none => exact absurd (List.argmin_eq_none.mp ha) hcne
        | some pr =>
          simp only [ha] at h
          have hmem : pr ∈ costs := List.argmin_mem (Option.mem_def.mpr ha)
          have hmemrem : pr.1 ∈ r :: rs := by
            rw [← hfst]
            exact List.mem_map_of_mem Prod.fst hmem
          have hlen2 : k = ((r :: rs).erase pr.1).length := by
            rw [List.length_erase_of_mem hmemrem]
            simp only [List.length_cons] at hlen ⊢
            omega
          obtain ⟨visits, hres, hperm⟩ :=
            ih ((r :: rs).erase pr.1) pr.1 (pr.1 :: acc) res hlen2 h
          refine ⟨pr.1 :: visits, ?_, ?_⟩
          · rw [hres]; simp
          · exact (hperm.cons pr.1).trans (List.perm_cons_erase hmemrem).symm

/-- C3 amended: whenever solve_tsp returns a route without raising, the
route is either empty (solver failure) or a permutation of the node indices
0..N-1 beginning at the depot index 0, followed by one trailing return to
index 0 (the closed-tour leg the extraction loop appends). -/
theorem solve_tsp_closed_tour (locs : List Pos) (r : List Nat)
    (h : solve_tsp locs = some (Except.ok r)) :
    r = [] ∨ ∃ p, r = p ++ [0] ∧ p.Perm (List.range locs.length) ∧
      p.head? = some 0 := by
  rw [solve_tsp] at h
  cases hm : create_distance_matrix locs with
  | none => simp [hm] at h
  | some m =>
    simp only [hm] at h
    by_cases hn : locs.length = 0
    · simp only [solverRoute, if_pos hn, Option.some.injEq, Except.ok.injEq] at h
      exact Or.inl h.symm
    · simp only [solverRoute, if_neg hn, Option.some.injEq] at h
      cases hg : greedyGo m (locs.length - 1) 0 (List.range' 1 (locs.length - 1)) [] with
      | error e => simp [hg, Except.map] at h
      | ok r0 =>
        simp only [hg, Except.map, Except.ok.injEq] at h
        obtain ⟨visits, hres, hperm⟩ :=
          greedyGo_ok m (locs.length - 1) (List.range' 1 (locs.length - 1)) 0 [] r0
            (by simp) hg
        right
        refine ⟨0 :: visits, ?_, ?_, rfl⟩
        · rw [← h, hres]; simp
        · have hrange : List.range locs.length = 0 :: List.range' 1 (locs.length - 1) := by
            cases hl : locs.length with
            | zero => exact absurd hl hn
            | succ t => rw [List.range_eq_range', List.range'_succ]; rfl
          rw [hrange]
          exact hperm.cons 0

/-- C3 witness: the amended statement at the concrete two-location run. -/
theorem solve_tsp_closed_tour_witness :
    ([0, 1, 0] : List Nat) = [] ∨ ∃ p, ([0, 1, 0] : List Nat) = p ++ [0] ∧
      p.Perm (List.range ([(9, 10), (9, 11)] : List Pos).length) ∧
      p.head? = some 0 :=
  solve_tsp_closed_tour [(9, 10), (9, 11)] [0, 1, 0] (by rfl)

/- Association-list facts used by the A* invariant proofs. -/

theorem alook_isSome_iff_mem {α β : Type} [DecidableEq α] (l : List (α × β))
    (k : α) : (alook l k).isSome = true ↔ k ∈ l.map Prod.fst := by
  induction l with
  | nil => simp [alook]
  | cons e r ih =>
    obtain ⟨a, b⟩ := e
    by_cases h : a = k
    · subst h; simp [alook]
    · simp only [alook, if_neg h, List.map_cons, List.mem_cons, ih]
      constructor
      · exact Or.inr
      · rintro (rfl | hm)
        · exact absurd rfl h
        · exact hm

theorem alook_none_of_not_mem {α β : Type} [DecidableEq α] (l : List (α × β))
    (k : α) (h : k ∉ l.map Prod.fst) : alook l k = none := by
  cases ha : alook l k with
  | none => rfl
  | some b =>
    exact absurd ((alook_isSome_iff_mem l k).mp (by rw [ha]; rfl)) h

theorem alook_filter_ne {α β : Type} [DecidableEq α] (l : List (α × β))
    (k k' : α) (h : k' ≠ k) :
    alook (l.filter (fun e => decide (e.1 ≠ k))) k' = alook l k' := by
  induction l with
  | nil => rfl
  | cons e r ih =>
    obtain ⟨a, b⟩ := e
    by_cases ha : a = k
    · subst ha
      have hne : ¬ (a = k') := fun hh => h hh.symm
      rw [List.filter_cons]
      have hp : (decide (((a, b) : α × β).1 ≠ a)) = false := by simp
      rw [hp]
      simp only [Bool.false_eq_true, if_false]
      rw [alook, if_neg hne]
      exact ih
    · rw [List.filter_cons]
      have hp : (decide (((a, b) : α × β).1 ≠ k)) = true := by simpa using ha
      rw [hp]
      simp only [if_true]
      by_cases hk' : a = k'
      · subst hk'; rw [alook, alook, if_pos rfl, if_pos rfl]
      · rw [alook, alook, if_neg hk', if_neg hk', ih]

theorem alook_aset_self {α β : Type} [DecidableEq α] (l : List (α × β))
    (k : α) (v : β) : alook (aset l k v) k = some v := by
  simp [aset, alook]

theorem alook_aset_ne {α β : Type} [DecidableEq α] (l : List (α × β))
    (k k' : α) (v : β) (h : k' ≠ k) :
    alook (aset l k v) k' = alook l k' := by
  rw [aset, alook, if_neg (fun hh => h hh.symm)]
  exact alook_filter_ne l k k' h

theorem aset_keys_nodup {α β : Type} [DecidableEq α] (l : List (α × β))
    (k : α) (v : β) (h : (l.map Prod.fst).Nodup) :
    ((aset l k v).map Prod.fst).Nodup := by
  have hsub : (l.filter (fun e => decide (e.1 ≠ k))).Sublist l :=
    List.filter_sublist l
  have hnd : ((l.filter (fun e => decide (e.1 ≠ k))).map Prod.fst).Nodup :=
    (hsub.map Prod.fst).nodup h
  rw [aset, List.map_cons]
  refine List.nodup_cons.mpr ⟨?_, hnd⟩
  intro hk
  obtain ⟨x, hx, hfst⟩ := List.mem_map.mp hk
  have hp := List.of_mem_filter hx
  simp only [decide_eq_true_eq] at hp
  exact hp hfst

theorem filter_ne_eq_self {α β : Type} [DecidableEq α] (l : List (α × β))
    (k : α) (h : alook l k = none) :
    l.filter (fun e => decide (e.1 ≠ k)) = l := by
  induction l with
  | nil => rfl
  | cons e r ih =>
    obtain ⟨a, b⟩ := e
    by_cases ha : a = k
    · subst ha; rw [alook, if_pos rfl] at h; exact absurd h (by simp)
    · rw [alook, if_neg ha] at h
      simp only [List.filter_cons]
      rw [if_pos (by simpa using ha), ih h]

theorem aset_length_not_mem {α β : Type} [DecidableEq α] (l : List (α × β))
    (k : α) (v : β) (h : alook l k = none) :
    (aset l k v).length = l.length + 1 := by
  rw [aset, filter_ne_eq_self l k h, List.length_cons]

theorem aset_length_mem {α β : Type} [DecidableEq α] (l : List (α × β))
    (k : α) (v w : β) (hnd : (l.map Prod.fst).Nodup)
    (h : alook l k = some w) : (aset l k v).length = l.length := by
  induction l with
  | nil => simp [alook] at h
  | cons e r ih =>
    obtain ⟨a, b⟩ := e
    simp only [List.map_cons, List.nodup_cons] at hnd
    obtain ⟨hnotin, hndr⟩ := hnd
    by_cases ha : a = k
    · subst ha
      have hr : alook r a = none := alook_none_of_not_mem r a hnotin
      rw [aset, List.filter_cons]
      have hp : (decide (((a, b) : α × β).1 ≠ a)) = false := by simp
      rw [hp]
      simp only [Bool.false_eq_true, if_false]
      rw [filter_ne_eq_self r a hr, List.length_cons, List.length_cons]
    · rw [alook, if_neg ha] at h
      have hthis := ih hndr h
      rw [aset] at hthis
      rw [aset, List.filter_cons]
      have hp : (decide (((a, b) : α × β).1 ≠ k)) = true := by simpa using ha
      rw [hp]
      simp only [if_true, List.length_cons] at hthis ⊢
      omega

theorem gSum_cons (e : Pos × Nat) (l : List (Pos × Nat)) :
    gSum (e :: l) = (e.2 + 1) + gSum l := by
  simp [gSum]

theorem gSum_aset_not_mem (l : List (Pos × Nat)) (k : Pos) (v : Nat)
    (h : alook l k = none) : gSum (aset l k v) = gSum l + (v + 1) := by
  rw [aset, filter_ne_eq_self l k h, gSum_cons]
  omega

theorem gSum_aset_mem (l : List (Pos × Nat)) (k : Pos) (v w : Nat)
    (hnd : (l.map Prod.fst).Nodup) (h : alook l k = some w) :
    gSum (aset l k v) + (w + 1) = gSum l + (v + 1) := by
  induction l with
  | nil => simp [alook] at h
  | cons e r ih =>
    obtain ⟨a, b⟩ := e
    simp only [List.map_cons, List.nodup_cons] at hnd
    obtain ⟨hnotin, hndr⟩ := hnd
    by_cases ha : a = k
    · subst ha
      rw [alook, if_pos rfl] at h
      have hr : alook r a = none := alook_none_of_not_mem r a hnotin
      rw [aset, List.filter_cons]
      have hp : (decide (((a, b) : Pos × Nat).1 ≠ a)) = false := by simp
      rw [hp]
      simp only [Bool.false_eq_true, if_false]
      rw [filter_ne_eq_self r a hr, gSum_cons, gSum_cons]
      simp only [Option.some.injEq] at h
      omega
    · rw [alook, if_neg ha] at h
      have hthis := ih hndr h
      rw [aset] at hthis
      rw [gSum_cons] at hthis
      rw [aset, List.filter_cons]
      have hp : (decide (((a, b) : Pos × Nat).1 ≠ k)) = true := by simpa using ha
      rw [hp]
      simp only [if_true]
      rw [gSum_cons, gSum_cons, gSum_cons]
      omega

/- Heap-order facts. -/

theorem keyLt_iff (a b : Nat × Pos) :
    keyLt a b = true ↔
      (a.1 < b.1 ∨ (a.1 = b.1 ∧ (a.2.1 < b.2.1 ∨
        (a.2.1 = b.2.1 ∧ a.2.2 < b.2.2)))) := by
  simp [keyLt]

theorem keyLt_irrefl (a : Nat × Pos) : keyLt a a = false := by
  simp [keyLt]

theorem keyLt_asymm (a b : Nat × Pos) (h : keyLt a b = true) :
    keyLt b a = false := by
  rw [keyLt_iff] at h
  rw [← Bool.not_eq_true, keyLt_iff]
  omega

theorem keyLt_neg_trans (x m a : Nat × Pos) (h1 : keyLt x m = false)
    (h2 : keyLt m a = false) : keyLt x a = false := by
  rw [← Bool.not_eq_true, keyLt_iff] at h1 h2 ⊢
  omega

theorem keyLt_fst_le (x m : Nat × Pos) (h : keyLt x m = false) : m.1 ≤ x.1 := by
  rw [← Bool.not_eq_true, keyLt_iff] at h
  omega

theorem findMinEntry_mem (l : List (Nat × Pos)) :
    ∀ m, findMinEntry l = some m → m ∈ l := by
  induction l with
  | nil => intro m h; exact absurd h (by simp [findMinEntry])
  | cons a r ih =>
    intro m h
    rw [findMinEntry] at h
    cases hf : findMinEntry r with
    | none =>
      simp only [hf, Option.some.injEq] at h
      subst h
      exact List.mem_cons_self a r
    | some m' =>
      simp only [hf] at h
      by_cases hlt : keyLt m' a = true
      · rw [if_pos hlt] at h
        simp only [Option.some.injEq] at h
        subst h
        exact List.mem_cons_of_mem a (ih m' hf)
      · rw [if_neg hlt] at h
        simp only [Option.some.injEq] at h
        subst h
        exact List.mem_cons_self a r

theorem findMinEntry_none_iff (l : List (Nat × Pos)) :
    findMinEntry l = none ↔ l = [] := by
  cases l with
  | nil => simp [findMinEntry]
  | cons a r =>
    rw [findMinEntry]
    cases hf : findMinEntry r with
    | none => simp
    | some m =>
      constructor
      · intro h
        exfalso
        by_cases hlt : keyLt m a = true <;> simp [hlt] at h
      · intro h
        exact absurd h (by simp)

theorem findMinEntry_min (l : List (Nat × Pos)) :
    ∀ m, findMinEntry l = some m → ∀ x ∈ l, keyLt x m = false := by
  induction l with
  | nil => intro m h; exact absurd h (by simp [findMinEntry])
  | cons a r ih =>
    intro m h x hx
    rw [findMinEntry] at h
    cases hf : findMinEntry r with
    | none =>
      have hr : r = [] := (findMinEntry_none_iff r).mp hf
      subst hr
      simp only [hf, Option.some.injEq] at h
      subst h
      rcases List.mem_cons.mp hx with rfl | hx'
      · exact keyLt_irrefl _
      · exact absurd hx' (List.not_mem_nil x)
    | some m' =>
      simp only [hf] at h
      by_cases hlt : keyLt m' a = true
      · rw [if_pos hlt] at h
        simp only [Option.some.injEq] at h
        subst h
        rcases List.mem_cons.mp hx with rfl | hx'
        · exact keyLt_asymm _ _ hlt
        · exact ih _ hf x hx'
      · rw [if_neg hlt] at h
        simp only [Option.some.injEq] at h
        subst h
        have hlt' : keyLt m' a = false := by simpa using hlt
        rcases List.mem_cons.mp hx with rfl | hx'
        · exact keyLt_irrefl _
        · exact keyLt_neg_trans _ m' _ (ih m' hf x hx') hlt'

theorem popMin_none_iff (l : List (Nat × Pos)) : popMin l = none ↔ l = [] := by
  rw [popMin]
  cases hf : findMinEntry l with
  | none => simp [(findMinEntry_none_iff l).mp hf]
  | some m =>
    constructor
    · intro h; exact absurd h (by simp)
    · intro hl; subst hl; simp [findMinEntry] at hf

theorem popMin_spec (l : List (Nat × Pos)) (m : Nat × Pos)
    (rest : List (Nat × Pos)) (h : popMin l = some (m, rest)) :
    m ∈ l ∧ rest = l.erase m ∧ ∀ x ∈ l, keyLt x m = false := by
  rw [popMin] at h
  cases hf : findMinEntry l with
  | none => simp [hf] at h
  | some m0 =>
    simp only [hf, Option.some.injEq, Prod.mk.injEq] at h
    obtain ⟨hm, hrest⟩ := h
    subst hm
    subst hrest
    exact ⟨findMinEntry_mem l _ hf, rfl, findMinEntry_min l _ hf⟩

/- Neighbor geometry. -/

theorem mem_iteList {α : Type} (b : Bool) (x a : α) :
    a ∈ (if b = true then [x] else ([] : List α)) ↔ b = true ∧ a = x := by
  cases b <;> simp

theorem mem_get_neighbors {grid : List (List Nat)} {p q : Pos} :
    q ∈ get_neighbors grid p ↔
      okCell grid q = true ∧
        (q = (p.1 - 1, p.2) ∨ q = (p.1 + 1, p.2) ∨
          q = (p.1, p.2 - 1) ∨ q = (p.1, p.2 + 1)) := by
  simp only [get_neighbors, List.mem_append, mem_iteList]
  constructor
  · rintro (((⟨h, rfl⟩ | ⟨h, rfl⟩) | ⟨h, rfl⟩) | ⟨h, rfl⟩)
    · exact ⟨h, Or.inl rfl⟩
    · exact ⟨h, Or.inr (Or.inl rfl)⟩
    · exact ⟨h, Or.inr (Or.inr (Or.inl rfl))⟩
    · exact ⟨h, Or.inr (Or.inr (Or.inr rfl))⟩
  · rintro ⟨h, (rfl | rfl | rfl | rfl)⟩
    · exact Or.inl (Or.inl (Or.inl ⟨h, rfl⟩))
    · exact Or.inl (Or.inl (Or.inr ⟨h, rfl⟩))
    · exact Or.inl (Or.inr ⟨h, rfl⟩)
    · exact Or.inr ⟨h, rfl⟩

theorem neighbors_ok {grid : List (List Nat)} {p q : Pos}
    (h : q ∈ get_neighbors grid p) : okCell grid q = true :=
  (mem_get_neighbors.mp h).1

theorem neighbors_stepAdj {grid : List (List Nat)} {p q : Pos}
    (h : q ∈ get_neighbors grid p) : stepAdj p q = true := by
  rcases (mem_get_neighbors.mp h).2 with rfl | rfl | rfl | rfl <;>
    · simp only [stepAdj, beq_iff_eq]
      omega

theorem not_self_neighbor {grid : List (List Nat)} (p : Pos) :
    p ∉ get_neighbors grid p := by
  intro h
  rcases (mem_get_neighbors.mp h).2 with h1 | h1 | h1 | h1 <;>
    · rw [Prod.ext_iff] at h1
      omega

theorem neighbors_symm {grid : List (List Nat)} {p q : Pos}
    (hp : okCell grid p = true) (h : q ∈ get_neighbors grid p) :
    p ∈ get_neighbors grid q := by
  rcases (mem_get_neighbors.mp h).2 with rfl | rfl | rfl | rfl
  · exact mem_get_neighbors.mpr ⟨hp, Or.inr (Or.inl (Prod.ext_iff.mpr ⟨by omega, rfl⟩))⟩
  · exact mem_get_neighbors.mpr ⟨hp, Or.inl (Prod.ext_iff.mpr ⟨by omega, rfl⟩)⟩
  · exact mem_get_neighbors.mpr ⟨hp, Or.inr (Or.inr (Or.inr (Prod.ext_iff.mpr ⟨rfl, by omega⟩)))⟩
  · exact mem_get_neighbors.mpr ⟨hp, Or.inr (Or.inr (Or.inl (Prod.ext_iff.mpr ⟨rfl, by omega⟩)))⟩

theorem heuristic_self (a : Pos) : heuristic a a = 0 := by
  simp [heuristic]

theorem heuristic_consistent {grid : List (List Nat)} {p q : Pos} (t : Pos)
    (h : q ∈ get_neighbors grid p) :
    heuristic p t ≤ heuristic q t + 1 := by
  rcases (mem_get_neighbors.mp h).2 with rfl | rfl | rfl | rfl <;>
    · simp only [heuristic]
      omega

/- Reachability facts. -/

theorem reachN_ok {grid : List (List Nat)} {s t : Pos} {n : Nat}
    (hs : okCell grid s = true) (h : ReachN grid s t n) :
    okCell grid t = true := by
  induction h with
  | refl => exact hs
  | tail _ hmem _ => exact neighbors_ok hmem

theorem reachN_trans {grid : List (List Nat)} {s u t : Pos} {n m : Nat}
    (h1 : ReachN grid s u n) (h2 : ReachN grid u t m) :
    ReachN grid s t (n + m) := by
  induction h2 with
  | refl => exact h1
  | tail _ hmem ih => exact ReachN.tail ih hmem

theorem reachN_single {grid : List (List Nat)} {u v : Pos}
    (h : v ∈ get_neighbors grid u) : ReachN grid u v 1 :=
  ReachN.tail ReachN.refl h

theorem reachN_rev {grid : List (List Nat)} {s t : Pos} {n : Nat}
    (hs : okCell grid s = true) (h : ReachN grid s t n) :
    ReachN grid t s n := by
  induction h with
  | refl => exact ReachN.refl
  | tail h1 hmem ih =>
    have hu := reachN_ok hs h1
    have h2 := reachN_trans (reachN_single (neighbors_symm hu hmem)) ih
    simpa [Nat.add_comm] using h2

theorem reachN_zero {grid : List (List Nat)} {s t : Pos}
    (h : ReachN grid s t 0) : t = s := by
  cases h; rfl

theorem isMinReach_exists {grid : List (List Nat)} {s t : Pos} {n : Nat}
    (h : ReachN grid s t n) : ∃ m, IsMinReach grid s t m := by
  classical
  have hx : ∃ k, ReachN grid s t k := ⟨n, h⟩
  exact ⟨Nat.find hx, Nat.find_spec hx, fun m hm => Nat.find_min' hx hm⟩

theorem isMinReach_start (grid : List (List Nat)) (s : Pos) :
    IsMinReach grid s s 0 :=
  ⟨ReachN.refl, fun m _ => Nat.zero_le m⟩

theorem isMinReach_unique {grid : List (List Nat)} {s t : Pos} {n m : Nat}
    (h1 : IsMinReach grid s t n) (h2 : IsMinReach grid s t m) : n = m :=
  Nat.le_antisymm (h1.2 m h2.1) (h2.2 n h1.1)

theorem minReach_pred {grid : List (List Nat)} {s v : Pos} {n : Nat}
    (h : IsMinReach grid s v (n + 1)) :
    ∃ u, IsMinReach grid s u n ∧ v ∈ get_neighbors grid u := by
  obtain ⟨hr, hmin⟩ := h
  cases hr with
  | tail h1 hmem =>
    refine ⟨_, ⟨h1, ?_⟩, hmem⟩
    intro m hm
    have := hmin (m + 1) (ReachN.tail hm hmem)
    omega

/- Walk-list facts. -/

theorem pathList_ne_nil {grid : List (List Nat)} {s t : Pos} {l : List Pos}
    (h : PathList grid s t l) : l ≠ [] := by
  induction h with
  | single => simp
  | snoc h1 hmem ih => simp

theorem pathList_head {grid : List (List Nat)} {s t : Pos} {l : List Pos}
    (h : PathList grid s t l) : l.head? = some s := by
  induction h with
  | single => rfl
  | snoc h1 hmem ih => rw [List.head?_append, ih]; rfl

theorem pathList_last {grid : List (List Nat)} {s t : Pos} {l : List Pos}
    (h : PathList grid s t l) : l.getLast? = some t := by
  induction h with
  | single => rfl
  | snoc h1 hmem ih => exact List.getLast?_concat _

theorem pathList_reachN {grid : List (List Nat)} {s t : Pos} {l : List Pos}
    (h : PathList grid s t l) : ReachN grid s t (l.length - 1) := by
  induction h with
  | single => exact ReachN.refl
  | snoc h1 hmem ih =>
    have hpos : 0 < _ := List.length_pos.mpr (pathList_ne_nil h1)
    have h2 := ReachN.tail ih hmem
    have heq : (_ - 1) + 1 = _ := Nat.sub_add_cancel hpos
    rw [heq] at h2
    simpa using h2

theorem reachN_pathList {grid : List (List Nat)} {s t : Pos} {n : Nat}
    (h : ReachN grid s t n) :
    ∃ l, PathList grid s t l ∧ l.length = n + 1 := by
  induction h with
  | refl => exact ⟨[s], PathList.single, rfl⟩
  | tail h1 hmem ih =>
    obtain ⟨l, hl, hlen⟩ := ih
    exact ⟨l ++ [_], PathList.snoc hl hmem, by simp [hlen]⟩

theorem pathList_ok {grid : List (List Nat)} {s t : Pos} {l : List Pos}
    (hs : okCell grid s = true) (h : PathList grid s t l) :
    ∀ c ∈ l, okCell grid c = true := by
  induction h with
  | single => intro c hc; rw [List.mem_singleton.mp hc]; exact hs
  | snoc h1 hmem ih =>
    intro c hc
    rcases List.mem_append.mp hc with hc1 | hc2
    · exact ih c hc1
    · rw [List.mem_singleton.mp hc2]; exact neighbors_ok hmem

theorem pathList_chain {grid : List (List Nat)} {s t : Pos} {l : List Pos}
    (h : PathList grid s t l) :
    List.Chain' (fun a b => stepAdj a b = true) l := by
  induction h with
  | single => simp
  | snoc h1 hmem ih =>
    rw [List.chain'_append]
    refine ⟨ih, by simp, ?_⟩
    intro x hx y hy
    rw [pathList_last h1] at hx
    simp only [Option.mem_def, Option.some.injEq] at hx
    simp only [List.head?_cons, Option.mem_def, Option.some.injEq] at hy
    subst hx
    subst hy
    exact neighbors_stepAdj hmem

theorem chainB_reachN (grid : List (List Nat)) :
    ∀ (rest : List Pos) (a : Pos), chainB grid a rest = true →
      ReachN grid a (List.getLastD rest a) rest.length := by
  intro rest
  induction rest with
  | nil => intro a h; exact ReachN.refl
  | cons q r ih =>
    intro a h
    rw [chainB, Bool.and_eq_true] at h
    obtain ⟨h1, h2⟩ := h
    have hmem : q ∈ get_neighbors grid a := by
      simpa [List.contains, List.elem_iff] using h1
    have h3 := reachN_trans (reachN_single hmem) (ih q h2)
    rw [List.getLastD_cons]
    simpa [Nat.add_comm, List.length_cons] using h3

theorem isPathB_reachN {grid : List (List Nat)} {s t : Pos} {l : List Pos}
    (h : isPathB grid s t l = true) :
    l ≠ [] ∧ ReachN grid s t (l.length - 1) := by
  cases l with
  | nil => exact absurd h (by simp [isPathB])
  | cons a r =>
    rw [isPathB] at h
    simp only [Bool.and_eq_true, beq_iff_eq] at h
    obtain ⟨⟨⟨ha, hok⟩, hchain⟩, hlast⟩ := h
    subst ha
    refine ⟨by simp, ?_⟩
    have h3 := chainB_reachN grid r a hchain
    rw [hlast] at h3
    simpa using h3

theorem chainB_snoc (grid : List (List Nat)) :
    ∀ (r : List Pos) (a v : Pos),
      chainB grid a (r ++ [v]) =
        (chainB grid a r && (get_neighbors grid (List.getLastD r a)).contains v) := by
  intro r
  induction r with
  | nil => intro a v; simp [chainB]
  | cons q s ih =>
    intro a v
    rw [List.cons_append, chainB, chainB, ih, List.getLastD_cons]
    rw [Bool.and_assoc]

theorem pathList_isPathB {grid : List (List Nat)} {s t : Pos} {l : List Pos}
    (hs : okCell grid s = true) (h : PathList grid s t l) :
    isPathB grid s t l = true := by
  induction h with
  | single => simp [isPathB, chainB, hs]
  | @snoc u v l h1 hmem ih =>
    obtain ⟨a, r, rfl⟩ : ∃ a r, l = a :: r := by
      cases l with
      | nil => exact absurd rfl (pathList_ne_nil h1)
      | cons a r => exact ⟨a, r, rfl⟩
    rw [isPathB] at ih
    simp only [Bool.and_eq_true, beq_iff_eq] at ih
    obtain ⟨⟨⟨ha, hok⟩, hchain⟩, hlast⟩ := ih
    subst ha
    rw [List.cons_append, isPathB]
    simp only [Bool.and_eq_true, beq_iff_eq]
    refine ⟨⟨⟨by simp, hok⟩, ?_⟩, ?_⟩
    · rw [chainB_snoc]
      simp only [Bool.and_eq_true]
      refine ⟨hchain, ?_⟩
      rw [hlast]
      simpa [List.contains, List.elem_iff] using hmem
    · rw [List.getLastD_concat]

/- Counting distinct walkable cells. -/

theorem okCell_bounds {grid : List (List Nat)} {p : Pos}
    (h : okCell grid p = true) :
    0 ≤ p.1 ∧ p.1 < (rowsOf grid : Int) ∧ 0 ≤ p.2 ∧ p.2 < (colsOf grid : Int) := by
  rw [okCell, Bool.and_eq_true, inBoundsB] at h
  simp only [Bool.and_eq_true, decide_eq_true_eq] at h
  tauto

theorem okKeys_card (grid : List (List Nat)) (keys : List Pos)
    (hnd : keys.Nodup) (hok : ∀ p ∈ keys, okCell grid p = true) :
    keys.length ≤ rowsOf grid * colsOf grid := by
  classical
  have hinj : ∀ p ∈ keys, ∀ q ∈ keys,
      (p.1.toNat, p.2.toNat) = (q.1.toNat, q.2.toNat) → p = q := by
    intro p hp q hq hf
    obtain ⟨hp1, _, hp2, _⟩ := okCell_bounds (hok p hp)
    obtain ⟨hq1, _, hq2, _⟩ := okCell_bounds (hok q hq)
    rw [Prod.ext_iff] at hf ⊢
    obtain ⟨h1, h2⟩ := hf
    constructor <;> omega
  have hnd2 : (keys.map (fun p : Pos => (p.1.toNat, p.2.toNat))).Nodup :=
    hnd.map_on hinj
  have hsub : (keys.map (fun p : Pos => (p.1.toNat, p.2.toNat))).toFinset ⊆
      Finset.range (rowsOf grid) ×ˢ Finset.range (colsOf grid) := by
    intro x hx
    obtain ⟨p, hp, hpx⟩ := List.mem_map.mp (List.mem_toFinset.mp hx)
    obtain ⟨h1, h2, h3, h4⟩ := okCell_bounds (hok p hp)
    rw [Finset.mem_product, Finset.mem_range, Finset.mem_range, ← hpx]
    constructor <;> omega
  have hcard := Finset.card_le_card hsub
  rw [List.toFinset_card_of_nodup hnd2] at hcard
  rw [Finset.card_product, Finset.card_range, Finset.card_range] at hcard
  simpa using hcard

theorem AInvCore.gLen {grid : List (List Nat)} {start goal : Pos} {st : AState}
    (inv : AInvCore grid start goal st) :
    st.gScore.length ≤ rowsOf grid * colsOf grid := by
  have hok : ∀ p ∈ st.gScore.map Prod.fst, okCell grid p = true := by
    intro p hp
    have hs : (alook st.gScore p).isSome = true :=
      (alook_isSome_iff_mem _ p).mpr hp
    obtain ⟨n, hn⟩ := Option.isSome_iff_exists.mp hs
    exact inv.gOk p n hn
  have := okKeys_card grid (st.gScore.map Prod.fst) inv.gNodup hok
  simpa using this

/- One relaxation step. -/

theorem relax_eq (grid : List (List Nat)) (goal c : Pos) (st : AState)
    (nb : Pos) :
    (relaxNeighbor grid goal c st nb = st ∧
      ∃ gn, alook st.gScore nb = some gn ∧
        gn ≤ (alook st.gScore c).getD 0 + 1) ∨
    (relaxNeighbor grid goal c st nb =
        { openSet := ((alook st.gScore c).getD 0 + 1 + heuristic nb goal, nb)
            :: st.openSet
          cameFrom := aset st.cameFrom nb c
          gScore := aset st.gScore nb ((alook st.gScore c).getD 0 + 1)
          fScore := aset st.fScore nb
            ((alook st.gScore c).getD 0 + 1 + heuristic nb goal) } ∧
      (∀ gn, alook st.gScore nb = some gn →
        (alook st.gScore c).getD 0 + 1 < gn)) := by
  unfold relaxNeighbor
  cases hnb : alook st.gScore nb with
  | none =>
    right
    refine ⟨by simp, ?_⟩
    intro gn hgn
    exact absurd hgn (by simp)
  | some gn =>
    by_cases hlt : (alook st.gScore c).getD 0 + 1 < gn
    · right
      refine ⟨by simp [hlt], ?_⟩
      intro gn' hgn'
      injection hgn' with h
      omega
    · left
      refine ⟨by simp [hlt], gn, rfl, by omega⟩

theorem relax_spec {grid : List (List Nat)} {start goal c : Pos} {st : AState}
    {gc : Nat} (hcore : AInvCore grid start goal st)
    (hgc : alook st.gScore c = some gc) {nb : Pos}
    (hnb : nb ∈ get_neighbors grid c) :
    AInvCore grid start goal (relaxNeighbor grid goal c st nb) ∧
    alook (relaxNeighbor grid goal c st nb).gScore c = some gc ∧
    (∀ e ∈ st.openSet, e ∈ (relaxNeighbor grid goal c st nb).openSet) ∧
    (∀ v w, alook st.gScore v = some w →
      ∃ w', w' ≤ w ∧ alook (relaxNeighbor grid goal c st nb).gScore v = some w') ∧
    (∀ v w', alook (relaxNeighbor grid goal c st nb).gScore v = some w' →
      alook st.gScore v = some w' ∨
        (w' = gc + 1 ∧ (gc + 1 + heuristic v goal, v) ∈
          (relaxNeighbor grid goal c st nb).openSet)) ∧
    (∃ gx, alook (relaxNeighbor grid goal c st nb).gScore nb = some gx ∧
      gx ≤ gc + 1) ∧
    measureOf grid (relaxNeighbor grid goal c st nb) ≤ measureOf grid st ∧
    (FrontierExcept grid start goal c st →
      FrontierExcept grid start goal c (relaxNeighbor grid goal c st nb)) := by
  have hnec : nb ≠ c := by
    intro h
    exact not_self_neighbor c (h ▸ hnb)
  have hgetD : (alook st.gScore c).getD 0 = gc := by rw [hgc]; rfl
  rcases relax_eq grid goal c st nb with ⟨heq, gn, hgn, hle⟩ | ⟨heq, hlt⟩
  · -- no update: the state is unchanged
    rw [heq]
    rw [hgetD] at hle
    refine ⟨hcore, hgc, fun e he => he, fun v w h => ⟨w, le_refl w, h⟩,
      fun v w' h => Or.inl h, ⟨gn, hgn, hle⟩, le_refl _, fun hfr => hfr⟩
  · -- update: a strictly better g was recorded for nb
    rw [hgetD] at heq hlt
    have hnbstart : nb ≠ start := by
      intro h
      have := hlt 0 (h ▸ hcore.gStart)
      omega
    have hgc' : alook (aset st.gScore nb (gc + 1)) c = some gc := by
      rw [alook_aset_ne st.gScore nb c (gc + 1) (fun hh => hnec hh.symm)]
      exact hgc
    have hgself : alook (aset st.gScore nb (gc + 1)) nb = some (gc + 1) :=
      alook_aset_self st.gScore nb (gc + 1)
    have hgother : ∀ v, v ≠ nb →
        alook (aset st.gScore nb (gc + 1)) v = alook st.gScore v := by
      intro v hv
      exact alook_aset_ne st.gScore nb v (gc + 1) hv
    have hcfself : alook (aset st.cameFrom nb c) nb = some c :=
      alook_aset_self st.cameFrom nb c
    have hcfother : ∀ v, v ≠ nb →
        alook (aset st.cameFrom nb c) v = alook st.cameFrom v := by
      intro v hv
      exact alook_aset_ne st.cameFrom nb v c hv
    have hokn : okCell grid nb = true := neighbors_ok hnb
    -- the new core invariant
    have hcore' : AInvCore grid start goal (relaxNeighbor grid goal c st nb) := by
      rw [heq]
      refine ⟨?_, ?_, ?_, ?_, ?_, ?_, ?_, ?_, ?_, ?_, ?_, ?_⟩
      · exact aset_keys_nodup st.gScore nb (gc + 1) hcore.gNodup
      · exact aset_keys_nodup st.cameFrom nb c hcore.cfNodup
      · show alook (aset st.gScore nb (gc + 1)) start = some 0
        rw [hgother start (fun hh => hnbstart hh.symm)]
        exact hcore.gStart
      · intro v n h
        by_cases hv : v = nb
        · subst hv; exact hokn
        · rw [hgother v hv] at h
          exact hcore.gOk v n h
      · intro v n h
        by_cases hv : v = nb
        · subst hv
          rw [hgself] at h
          injection h with h
          rw [← h]
          exact ReachN.tail (hcore.gReach c gc hgc) hnb
        · rw [hgother v hv] at h
          exact hcore.gReach v n h
      · intro v n h
        show n + 1 ≤ (aset st.gScore nb (gc + 1)).length
        cases hnb0 : alook st.gScore nb with
        | none =>
          rw [aset_length_not_mem st.gScore nb (gc + 1) hnb0]
          by_cases hv : v = nb
          · subst hv
            rw [hgself] at h
            injection h with h
            have := hcore.gBound c gc hgc
            omega
          · rw [hgother v hv] at h
            have := hcore.gBound v n h
            omega
        | some gn0 =>
          rw [aset_length_mem st.gScore nb (gc + 1) gn0 hcore.gNodup hnb0]
          by_cases hv : v = nb
          · rw [hv] at h
            rw [hgself] at h
            injection h with h
            have h1 := hlt gn0 hnb0
            have h2 := hcore.gBound nb gn0 hnb0
            omega
          · rw [hgother v hv] at h
            exact hcore.gBound v n h
      · show (aset st.cameFrom nb c).length + 1 = (aset st.gScore nb (gc + 1)).length
        cases hnb0 : alook st.gScore nb with
        | none =>
          have hcf0 : alook st.cameFrom nb = none := by
            cases hcf1 : alook st.cameFrom nb with
            | none => rfl
            | some u =>
              have hs : (alook st.cameFrom nb).isSome = true := by
                rw [hcf1]; rfl
              obtain ⟨hg1, _⟩ := (hcore.cfIff nb).mp hs
              rw [hnb0] at hg1
              cases hg1
          rw [aset_length_not_mem st.cameFrom nb c hcf0,
            aset_length_not_mem st.gScore nb (gc + 1) hnb0, hcore.cfLen]
        | some gn0 =>
          have hs : (alook st.cameFrom nb).isSome = true := by
            refine (hcore.cfIff nb).mpr ⟨?_, hnbstart⟩
            rw [hnb0]; rfl
          obtain ⟨u0, hu0⟩ := Option.isSome_iff_exists.mp hs
          rw [aset_length_mem st.cameFrom nb c u0 hcore.cfNodup hu0,
            aset_length_mem st.gScore nb (gc + 1) gn0 hcore.gNodup hnb0,
            hcore.cfLen]
      · intro v
        by_cases hv : v = nb
        · subst hv
          constructor
          · intro _
            refine ⟨by rw [hgself]; rfl, hnbstart⟩
          · intro _
            rw [hcfself]; rfl
        · rw [show alook (aset st.cameFrom nb c) v = alook st.cameFrom v from
            hcfother v hv,
            show alook (aset st.gScore nb (gc + 1)) v = alook st.gScore v from
            hgother v hv]
          exact hcore.cfIff v
      · intro v u h
        by_cases hv : v = nb
        · subst hv
          rw [hcfself] at h
          injection h with h
          subst h
          exact ⟨hnb, gc, gc + 1, hgc', hgself, by omega⟩
        · rw [hcfother v hv] at h
          obtain ⟨hedge, gu, gv, hgu, hgv, hlt2⟩ := hcore.cfEdge v u h
          refine ⟨hedge, ?_⟩
          by_cases hu : u = nb
          · subst hu
            have h1 := hlt gu hgu
            exact ⟨gc + 1, gv, hgself, by rw [hgother v hv]; exact hgv, by omega⟩
          · exact ⟨gu, gv, by rw [hgother u hu]; exact hgu,
              by rw [hgother v hv]; exact hgv, hlt2⟩
      · intro e he
        rcases List.mem_cons.mp he with rfl | he'
        · rw [hgself]; rfl
        · have := hcore.openG e he'
          obtain ⟨w, hw⟩ := Option.isSome_iff_exists.mp this
          by_cases hv : e.2 = nb
          · rw [hv, hgself]; rfl
          · rw [hgother e.2 hv, hw]; rfl
      · intro e he hestart
        rcases List.mem_cons.mp he with rfl | he'
        · exact ⟨gc + 1, hgself, le_refl _⟩
        · obtain ⟨gv, hgv, hle2⟩ := hcore.openKey e he' hestart
          by_cases hv : e.2 = nb
          · rw [hv] at hgv hle2 ⊢
            have h1 := hlt gv hgv
            refine ⟨gc + 1, hgself, ?_⟩
            omega
          · exact ⟨gv, by rw [hgother e.2 hv]; exact hgv, hle2⟩
      · intro n h
        by_cases hv : goal = nb
        · refine ⟨gc + 1 + heuristic nb goal, ?_⟩
          rw [hv]
          exact List.mem_cons_self _ _
        · rw [hgother goal hv] at h
          obtain ⟨k, hk⟩ := hcore.goalOpen n h
          exact ⟨k, List.mem_cons_of_mem _ hk⟩
    refine ⟨hcore', ?_, ?_, ?_, ?_, ?_, ?_, ?_⟩
    · rw [heq]; exact hgc'
    · rw [heq]
      intro e he
      exact List.mem_cons_of_mem _ he
    · rw [heq]
      intro v w h
      by_cases hv : v = nb
      · subst hv
        have h1 := hlt w h
        exact ⟨gc + 1, by omega, hgself⟩
      · exact ⟨w, le_refl w, by rw [hgother v hv]; exact h⟩
    · rw [heq]
      intro v w' h
      by_cases hv : v = nb
      · rw [hv] at h ⊢
        rw [hgself] at h
        injection h with h
        exact Or.inr ⟨h.symm, List.mem_cons_self _ _⟩
      · rw [hgother v hv] at h
        exact Or.inl h
    · rw [heq]
      exact ⟨gc + 1, hgself, le_refl _⟩
    · -- the measure does not increase
      rw [heq]
      have hTlen : (aset st.gScore nb (gc + 1)).length ≤
          rowsOf grid * colsOf grid := by
        have h2 := hcore'.gLen
        rw [heq] at h2
        exact h2
      cases hnb0 : alook st.gScore nb with
      | none =>
        have hlen := aset_length_not_mem st.gScore nb (gc + 1) hnb0
        have hsum := gSum_aset_not_mem st.gScore nb (gc + 1) hnb0
        have hbnd : gc + 1 + 1 ≤ (aset st.gScore nb (gc + 1)).length := by
          have h4 := hcore'.gBound
          rw [heq] at h4
          exact h4 nb (gc + 1) hgself
        dsimp only [measureOf]
        rw [List.length_cons, hlen, hsum]
        have hA : rowsOf grid * colsOf grid - st.gScore.length =
            (rowsOf grid * colsOf grid - (st.gScore.length + 1)) + 1 := by
          omega
        rw [hA, Nat.mul_add, Nat.mul_one]
        omega
      | some gn0 =>
        have hlen := aset_length_mem st.gScore nb (gc + 1) gn0 hcore.gNodup hnb0
        have hsum := gSum_aset_mem st.gScore nb (gc + 1) gn0 hcore.gNodup hnb0
        have h1 := hlt gn0 hnb0
        dsimp only [measureOf]
        rw [List.length_cons, hlen]
        omega
    · -- the frontier away from c survives the relaxation
      rw [heq]
      intro hfr v n hvne hmin h
      by_cases hv : v = nb
      · rw [hv] at h ⊢
        rw [hgself] at h
        injection h with h
        exact Or.inl ⟨gc + 1 + heuristic nb goal, by omega,
          List.mem_cons_self _ _⟩
      · rw [hgother v hv] at h
        rcases hfr v n hvne hmin h with ⟨k, hk1, hk2⟩ | hall
        · exact Or.inl ⟨k, hk1, List.mem_cons_of_mem _ hk2⟩
        · right
          intro x hx
          obtain ⟨gx, hgx, hgx2⟩ := hall x hx
          by_cases hxnb : x = nb
          · subst hxnb
            have h2 := hlt gx hgx
            exact ⟨gc + 1, hgself, by omega⟩
          · exact ⟨gx, by rw [hgother x hxnb]; exact hgx, hgx2⟩

/- The whole relaxation fold over the popped cell's neighbor list. -/

theorem fold_spec {grid : List (List Nat)} {start goal c : Pos} {gc : Nat} :
    ∀ (L : List Pos) (st : AState), AInvCore grid start goal st →
      alook st.gScore c = some gc →
      (∀ x ∈ L, x ∈ get_neighbors grid c) →
      AInvCore grid start goal (L.foldl (relaxNeighbor grid goal c) st) ∧
      alook (L.foldl (relaxNeighbor grid goal c) st).gScore c = some gc ∧
      (∀ e ∈ st.openSet,
        e ∈ (L.foldl (relaxNeighbor grid goal c) st).openSet) ∧
      (∀ v w, alook st.gScore v = some w → ∃ w', w' ≤ w ∧
        alook (L.foldl (relaxNeighbor grid goal c) st).gScore v = some w') ∧
      (∀ v w', alook (L.foldl (relaxNeighbor grid goal c) st).gScore v =
          some w' →
        alook st.gScore v = some w' ∨ (w' = gc + 1 ∧
          (gc + 1 + heuristic v goal, v) ∈
            (L.foldl (relaxNeighbor grid goal c) st).openSet)) ∧
      (∀ x ∈ L, ∃ gx,
        alook (L.foldl (relaxNeighbor grid goal c) st).gScore x = some gx ∧
          gx ≤ gc + 1) ∧
      measureOf grid (L.foldl (relaxNeighbor grid goal c) st) ≤
        measureOf grid st ∧
      (FrontierExcept grid start goal c st →
        FrontierExcept grid start goal c
          (L.foldl (relaxNeighbor grid goal c) st)) := by
  intro L
  induction L with
  | nil =>
    intro st hcore hgc _
    exact ⟨hcore, hgc, fun e he => he, fun v w h => ⟨w, le_refl w, h⟩,
      fun v w' h => Or.inl h, fun x hx => absurd hx (List.not_mem_nil x),
      le_refl _, fun hfr => hfr⟩
  | cons x L' ih =>
    intro st hcore hgc hL
    have hx : x ∈ get_neighbors grid c := hL x (List.mem_cons_self x L')
    obtain ⟨core1, hc1, open1, mono1, char1, relaxed1, meas1, fr1⟩ :=
      relax_spec hcore hgc hx
    have hL' : ∀ y ∈ L', y ∈ get_neighbors grid c :=
      fun y hy => hL y (List.mem_cons_of_mem x hy)
    obtain ⟨coreF, hcF, openF, monoF, charF, relaxedF, measF, frF⟩ :=
      ih (relaxNeighbor grid goal c st x) core1 hc1 hL'
    rw [List.foldl_cons]
    refine ⟨coreF, hcF, ?_, ?_, ?_, ?_, ?_, ?_⟩
    · intro e he
      exact openF e (open1 e he)
    · intro v w h
      obtain ⟨w1, hw1, hw1'⟩ := mono1 v w h
      obtain ⟨w2, hw2, hw2'⟩ := monoF v w1 hw1'
      exact ⟨w2, le_trans hw2 hw1, hw2'⟩
    · intro v w' h
      rcases charF v w' h with h1 | ⟨h1, h2⟩
      · rcases char1 v w' h1 with h3 | ⟨h3, h4⟩
        · exact Or.inl h3
        · exact Or.inr ⟨h3, openF _ h4⟩
      · exact Or.inr ⟨h1, h2⟩
    · intro y hy
      rcases List.mem_cons.mp hy with rfl | hy'
      · obtain ⟨gx, hgx, hgx2⟩ := relaxed1
        obtain ⟨gx', hgx', hgx2'⟩ := monoF y gx hgx
        exact ⟨gx', hgx2', le_trans hgx' hgx2⟩
      · exact relaxedF y hy'
    · exact le_trans measF meas1
    · intro hfr
      exact frF (fr1 hfr)

/- One full iteration of the while loop, when the popped cell is not the
goal. -/

theorem step_inv {grid : List (List Nat)} {start goal : Pos} {st : AState}
    (inv : AInv grid start goal st) {k0 : Nat} {c : Pos}
    {rest : List (Nat × Pos)}
    (hpop : popMin st.openSet = some ((k0, c), rest)) (hcg : c ≠ goal) :
    AInv grid start goal
      ((get_neighbors grid c).foldl (relaxNeighbor grid goal c)
        { st with openSet := rest }) ∧
    measureOf grid
      ((get_neighbors grid c).foldl (relaxNeighbor grid goal c)
        { st with openSet := rest }) < measureOf grid st := by
  obtain ⟨hmem, hrest, hmin⟩ := popMin_spec st.openSet (k0, c) rest hpop
  have hcsome := inv.openG (k0, c) hmem
  obtain ⟨gc, hgc⟩ := Option.isSome_iff_exists.mp hcsome
  have hrestmem : ∀ e ∈ rest, e ∈ st.openSet := by
    intro e he
    rw [hrest] at he
    exact List.mem_of_mem_erase he
  have hcoreB : AInvCore grid start goal { st with openSet := rest } :=
    ⟨inv.gNodup, inv.cfNodup, inv.gStart, inv.gOk, inv.gReach, inv.gBound,
      inv.cfLen, inv.cfIff, inv.cfEdge,
      fun e he => inv.openG e (hrestmem e he),
      fun e he hes => inv.openKey e (hrestmem e he) hes,
      by
        intro n h
        obtain ⟨k, hk⟩ := inv.goalOpen n h
        refine ⟨k, ?_⟩
        show (k, goal) ∈ rest
        rw [hrest]
        refine List.mem_erase_of_ne ?_ |>.mpr hk
        intro hh
        rw [Prod.ext_iff] at hh
        exact hcg hh.2.symm⟩
  have hfrB : FrontierExcept grid start goal c { st with openSet := rest } := by
    intro v n hvc hminr h
    rcases inv.frontier v n hminr h with ⟨k, hk1, hk2⟩ | hall
    · refine Or.inl ⟨k, hk1, ?_⟩
      show (k, v) ∈ rest
      rw [hrest]
      refine List.mem_erase_of_ne ?_ |>.mpr hk2
      intro hh
      rw [Prod.ext_iff] at hh
      exact hvc hh.2
    · exact Or.inr hall
  obtain ⟨coreF, hcF, openF, monoF, charF, relaxedF, measF, frF⟩ :=
    fold_spec (get_neighbors grid c) { st with openSet := rest } hcoreB hgc
      (fun x hx => hx)
  constructor
  · refine ⟨coreF, ?_⟩
    intro v n hminr h
    by_cases hvc : v = c
    · subst hvc
      rw [hcF] at h
      injection h with h
      right
      intro x hx
      obtain ⟨gx, hgx, hgx2⟩ := relaxedF x hx
      exact ⟨gx, hgx, by omega⟩
    · exact frF hfrB v n hvc hminr h
  · refine lt_of_le_of_lt measF ?_
    have hlen : rest.length = st.openSet.length - 1 := by
      rw [hrest]
      exact List.length_erase_of_mem hmem
    have hpos : 0 < st.openSet.length := List.length_pos.mpr
      (List.ne_nil_of_mem hmem)
    dsimp only [measureOf]
    omega

/- The A* optimality argument. -/

theorem settled_or_open {grid : List (List Nat)} {start goal : Pos}
    {st : AState} (inv : AInv grid start goal st) :
    ∀ n v, IsMinReach grid start v n →
      alook st.gScore v = some n ∨
      ∃ u du k, IsMinReach grid start u du ∧ alook st.gScore u = some du ∧
        (k, u) ∈ st.openSet ∧ k ≤ du + heuristic u goal ∧
        du + heuristic u goal ≤ n + heuristic v goal := by
  intro n
  induction n using Nat.strong_induction_on with
  | _ n ih =>
    intro v hmin
    cases n with
    | zero =>
      have hv : v = start := reachN_zero hmin.1
      subst hv
      exact Or.inl inv.gStart
    | succ d =>
      obtain ⟨u, hminu, hedge⟩ := minReach_pred hmin
      have hcons := heuristic_consistent goal hedge
      rcases ih d (by omega) u hminu with h1 |
        ⟨u', du', k', hmin', hg', hop', hk1', hk2'⟩
      · rcases inv.frontier u d hminu h1 with ⟨k, hk1, hk2⟩ | hall
        · right
          exact ⟨u, d, k, hminu, h1, hk2, hk1, by omega⟩
        · obtain ⟨gv, hgv, hgv2⟩ := hall v hedge
          left
          have hge := hmin.2 gv (inv.gReach v gv hgv)
          have hveq : gv = d + 1 := by omega
          rw [← hveq]
          exact hgv
      · right
        exact ⟨u', du', k', hmin', hg', hop', hk1', by omega⟩

theorem pop_goal_opt {grid : List (List Nat)} {start goal : Pos} {st : AState}
    (inv : AInv grid start goal st) (hne : start ≠ goal) {k0 : Nat}
    {rest : List (Nat × Pos)}
    (hpop : popMin st.openSet = some ((k0, goal), rest)) {n : Nat}
    (hmin : IsMinReach grid start goal n) :
    alook st.gScore goal = some n := by
  obtain ⟨hmem, hrest, hminall⟩ := popMin_spec st.openSet (k0, goal) rest hpop
  have hgsome := inv.openG (k0, goal) hmem
  obtain ⟨gg, hgg⟩ := Option.isSome_iff_exists.mp hgsome
  have hggn : n ≤ gg := hmin.2 gg (inv.gReach goal gg hgg)
  rcases settled_or_open inv n goal hmin with h1 |
    ⟨u, du, k, hminu, hgu, hopu, hk1, hk2⟩
  · exact h1
  · have hkk := keyLt_fst_le (k, u) (k0, goal) (hminall (k, u) hopu)
    have hz : heuristic goal goal = 0 := heuristic_self goal
    obtain ⟨gv, hgv, hle⟩ := inv.openKey (k0, goal) hmem (Ne.symm hne)
    rw [hgg] at hgv
    injection hgv with hgv
    have hgeq : gg = n := by
      simp only at hkk hle
      omega
    rw [hgeq] at hgg
    exact hgg

theorem reconstruct_spec {grid : List (List Nat)} {start goal : Pos}
    {st : AState} (hcore : AInvCore grid start goal st) :
    ∀ gc cur, alook st.gScore cur = some gc → ∀ fuel, gc < fuel →
      ∀ acc, ∃ core,
        reconstructPath st.cameFrom start fuel cur acc = some (core ++ acc) ∧
        PathList grid start cur core ∧ core.length ≤ gc + 1 := by
  intro gc
  induction gc using Nat.strong_induction_on with
  | _ gc ih =>
    intro cur hcur fuel hfuel acc
    obtain ⟨f, rfl⟩ : ∃ f, fuel = f + 1 := ⟨fuel - 1, by omega⟩
    rw [reconstructPath]
    cases hcf : alook st.cameFrom cur with
    | none =>
      have hcur_start : cur = start := by
        by_contra hnes
        have hs : (alook st.cameFrom cur).isSome = true :=
          (hcore.cfIff cur).mpr ⟨by rw [hcur]; rfl, hnes⟩
        rw [hcf] at hs
        cases hs
      rw [hcur_start]
      exact ⟨[start], rfl, PathList.single, by simp⟩
    | some prev =>
      obtain ⟨hedge, gu, gv, hgu, hgv, hlt⟩ := hcore.cfEdge cur prev hcf
      have hgveq : gv = gc := by
        rw [hcur] at hgv
        injection hgv with h
        omega
      obtain ⟨core', hrec, hpl, hlen⟩ :=
        ih gu (by omega) prev hgu f (by omega) (cur :: acc)
      refine ⟨core' ++ [cur], ?_, PathList.snoc hpl hedge, ?_⟩
      · show reconstructPath st.cameFrom start f prev (cur :: acc) =
          some (core' ++ [cur] ++ acc)
        rw [hrec]
        congr 1
        rw [List.append_assoc]
        rfl
      · rw [List.length_append]
        simp only [List.length_singleton]
        omega

/- Main loop lemmas. -/

theorem loop_sound {grid : List (List Nat)} {start goal : Pos} :
    ∀ (fuel : Nat) (st : AState), AInv grid start goal st →
      ∀ p, aStarLoop grid start goal fuel st = some p → p ≠ [] →
      PathList grid start goal p := by
  intro fuel
  induction fuel with
  | zero =>
    intro st inv p h hnil
    exact absurd h (by simp [aStarLoop])
  | succ f ih =>
    intro st inv p h hnil
    rw [aStarLoop] at h
    cases hpop : popMin st.openSet with
    | none =>
      simp only [hpop, Option.some.injEq] at h
      exact absurd h.symm hnil
    | some pr =>
      obtain ⟨⟨k0, c⟩, rest⟩ := pr
      simp only [hpop] at h
      by_cases hcg : c = goal
      · rw [if_pos hcg] at h
        rw [hcg] at hpop
        obtain ⟨hmem, _, _⟩ := popMin_spec st.openSet (k0, goal) rest hpop
        have hgsome := inv.openG (k0, goal) hmem
        obtain ⟨gg, hgg⟩ := Option.isSome_iff_exists.mp hgsome
        have hfb : gg < st.cameFrom.length + 1 := by
          have h1 := inv.gBound goal gg hgg
          have h2 := inv.cfLen
          omega
        obtain ⟨core, hrec, hpl, hlen⟩ :=
          reconstruct_spec inv.toAInvCore gg goal hgg _ hfb []
        rw [List.append_nil] at hrec
        rw [hrec] at h
        injection h with h
        rw [← h]
        exact hpl
      · rw [if_neg hcg] at h
        obtain ⟨inv', _⟩ := step_inv inv hpop hcg
        exact ih _ inv' p h hnil

theorem loop_finds {grid : List (List Nat)} {start goal : Pos}
    (hne : start ≠ goal) :
    ∀ (fuel : Nat) (st : AState), AInv grid start goal st →
      measureOf grid st < fuel → ∀ n, IsMinReach grid start goal n →
      ∃ p, aStarLoop grid start goal fuel st = some p ∧
        PathList grid start goal p ∧ p.length = n + 1 := by
  intro fuel
  induction fuel with
  | zero =>
    intro st inv hm n hmin
    omega
  | succ f ih =>
    intro st inv hm n hmin
    rw [aStarLoop]
    cases hpop : popMin st.openSet with
    | none =>
      exfalso
      have hempty : st.openSet = [] := (popMin_none_iff _).mp hpop
      rcases settled_or_open inv n goal hmin with h1 |
        ⟨u, du, k, _, _, hopu, _, _⟩
      · obtain ⟨k, hk⟩ := inv.goalOpen n h1
        rw [hempty] at hk
        exact List.not_mem_nil _ hk
      · rw [hempty] at hopu
        exact List.not_mem_nil _ hopu
    | some pr =>
      obtain ⟨⟨k0, c⟩, rest⟩ := pr
      dsimp only
      by_cases hcg : c = goal
      · rw [if_pos hcg]
        rw [hcg] at hpop
        have hgn := pop_goal_opt inv hne hpop hmin
        have hfb : n < st.cameFrom.length + 1 := by
          have h1 := inv.gBound goal n hgn
          have h2 := inv.cfLen
          omega
        obtain ⟨core, hrec, hpl, hlen⟩ :=
          reconstruct_spec inv.toAInvCore n goal hgn _ hfb []
        rw [List.append_nil] at hrec
        refine ⟨core, hrec, hpl, ?_⟩
        have hr := pathList_reachN hpl
        have hge := hmin.2 _ hr
        have hpos : 0 < core.length :=
          List.length_pos.mpr (pathList_ne_nil hpl)
        omega
      · rw [if_neg hcg]
        obtain ⟨inv', hdec⟩ := step_inv inv hpop hcg
        exact ih _ inv' (by omega) n hmin

theorem loop_nopath {grid : List (List Nat)} {start goal : Pos} :
    ∀ (fuel : Nat) (st : AState), AInv grid start goal st →
      measureOf grid st < fuel → (∀ n, ¬ ReachN grid start goal n) →
      aStarLoop grid start goal fuel st = some [] := by
  intro fuel
  induction fuel with
  | zero =>
    intro st inv hm hnone
    omega
  | succ f ih =>
    intro st inv hm hnone
    rw [aStarLoop]
    cases hpop : popMin st.openSet with
    | none => rfl
    | some pr =>
      obtain ⟨⟨k0, c⟩, rest⟩ := pr
      dsimp only
      by_cases hcg : c = goal
      · exfalso
        obtain ⟨hmem, _, _⟩ := popMin_spec st.openSet (k0, c) rest hpop
        have hgsome := inv.openG (k0, c) hmem
        obtain ⟨gg, hgg⟩ := Option.isSome_iff_exists.mp hgsome
        have hr := inv.gReach c gg hgg
        rw [hcg] at hr
        exact hnone gg hr
      · rw [if_neg hcg]
        obtain ⟨inv', hdec⟩ := step_inv inv hpop hcg
        exact ih _ inv' (by omega) hnone

theorem loop_total {grid : List (List Nat)} {start goal : Pos} :
    ∀ (fuel : Nat) (st : AState), AInv grid start goal st →
      measureOf grid st < fuel →
      ∃ r, aStarLoop grid start goal fuel st = some r := by
  intro fuel
  induction fuel with
  | zero =>
    intro st inv hm
    omega
  | succ f ih =>
    intro st inv hm
    rw [aStarLoop]
    cases hpop : popMin st.openSet with
    | none => exact ⟨[], rfl⟩
    | some pr =>
      obtain ⟨⟨k0, c⟩, rest⟩ := pr
      dsimp only
      by_cases hcg : c = goal
      · rw [if_pos hcg]
        rw [hcg] at hpop
        obtain ⟨hmem, _, _⟩ := popMin_spec st.openSet (k0, goal) rest hpop
        have hgsome := inv.openG (k0, goal) hmem
        obtain ⟨gg, hgg⟩ := Option.isSome_iff_exists.mp hgsome
        have hfb : gg < st.cameFrom.length + 1 := by
          have h1 := inv.gBound goal gg hgg
          have h2 := inv.cfLen
          omega
        obtain ⟨core, hrec, _, _⟩ :=
          reconstruct_spec inv.toAInvCore gg goal hgg _ hfb []
        exact ⟨core ++ [], hrec⟩
      · rw [if_neg hcg]
        obtain ⟨inv', hdec⟩ := step_inv inv hpop hcg
        exact ih _ inv' (by omega)

/- The initial search state. -/

theorem alook_singleton {α β : Type} [DecidableEq α] (a : α) (b : β) (k : α) :
    alook [(a, b)] k = if a = k then some b else none := by
  rw [alook]
  by_cases h : a = k
  · rw [if_pos h, if_pos h]
  · rw [if_neg h, if_neg h, alook]

theorem AInv_init {grid : List (List Nat)} {start goal : Pos}
    (hok : okCell grid start = true) :
    AInv grid start goal
      { openSet := [(0, start)], cameFrom := [], gScore := [(start, 0)],
        fScore := [(start, heuristic start goal)] } := by
  refine ⟨⟨?_, ?_, ?_, ?_, ?_, ?_, ?_, ?_, ?_, ?_, ?_, ?_⟩, ?_⟩
  · simp
  · simp
  · simp [alook_singleton]
  · intro v n h
    rw [alook_singleton] at h
    split at h
    · next hv => rw [← hv]; exact hok
    · exact absurd h (by simp)
  · intro v n h
    rw [alook_singleton] at h
    split at h
    · next hv =>
      injection h with h2
      rw [← hv, ← h2]
      exact ReachN.refl
    · exact absurd h (by simp)
  · intro v n h
    rw [alook_singleton] at h
    split at h
    · next hv =>
      injection h with h2
      simp [← h2]
    · exact absurd h (by simp)
  · rfl
  · intro v
    constructor
    · intro h
      exact absurd h (by simp [alook])
    · rintro ⟨h1, h2⟩
      rw [alook_singleton, if_neg (fun hh => h2 hh.symm)] at h1
      exact absurd h1 (by simp)
  · intro v u h
    exact absurd h (by simp [alook])
  · intro e he
    rw [List.mem_singleton] at he
    subst he
    simp [alook_singleton]
  · intro e he hes
    rw [List.mem_singleton] at he
    subst he
    exact absurd rfl hes
  · intro n h
    rw [alook_singleton] at h
    split at h
    · next hv =>
      refine ⟨0, ?_⟩
      rw [← hv]
      exact List.mem_singleton.mpr rfl
    · exact absurd h (by simp)
  · intro v n hmin h
    rw [alook_singleton] at h
    split at h
    · next hv =>
      injection h with h2
      left
      refine ⟨0, by omega, ?_⟩
      rw [← hv]
      exact List.mem_singleton.mpr rfl
    · exact absurd h (by simp)

theorem measure_init_lt {grid : List (List Nat)} {start goal : Pos}
    (hok : okCell grid start = true) :
    measureOf grid
      { openSet := [(0, start)], cameFrom := [], gScore := [(start, 0)],
        fScore := [(start, heuristic start goal)] } < aStarFuel grid := by
  have hT : 1 ≤ rowsOf grid * colsOf grid := by
    obtain ⟨h1, h2, h3, h4⟩ := okCell_bounds hok
    have hr : 0 < rowsOf grid := by omega
    have hc : 0 < colsOf grid := by omega
    exact Nat.one_le_iff_ne_zero.mpr (Nat.mul_ne_zero (by omega) (by omega))
  obtain ⟨t, ht⟩ : ∃ t, rowsOf grid * colsOf grid = t + 1 :=
    ⟨rowsOf grid * colsOf grid - 1, by omega⟩
  dsimp only [measureOf, aStarFuel, gSum]
  rw [ht]
  simp only [List.map_cons, List.map_nil, List.sum_cons, List.sum_nil,
    List.length_cons, List.length_nil]
  have hsub : t + 1 - 1 = t := by omega
  rw [hsub]
  nlinarith

/- Facts about the shipped layout and the validity check. -/

theorem getD_of_lt {α : Type} (l : List α) (n : Nat) (d : α)
    (h : n < l.length) : l.getD n d = l[n] := by
  rw [List.getD_eq_getElem?_getD, List.getElem?_eq_getElem h]
  rfl

theorem layout_cells_binary : cellsBinary layout = true := by decide

theorem cellAt_binary {grid : List (List Nat)} {p : Pos}
    (hb : cellsBinary grid = true) (hin : inBoundsB grid p = true)
    (hrect : ∀ row ∈ grid, row.length = colsOf grid) :
    cellAt grid p.1 p.2 = 0 ∨ cellAt grid p.1 p.2 = 1 := by
  rw [inBoundsB] at hin
  simp only [Bool.and_eq_true, decide_eq_true_eq] at hin
  obtain ⟨⟨⟨h1, h2⟩, h3⟩, h4⟩ := hin
  rw [cellsBinary, List.all_eq_true] at hb
  have hrow : p.1.toNat < grid.length := by
    rw [rowsOf] at h2
    omega
  have hrowmem : grid[p.1.toNat] ∈ grid := List.getElem_mem hrow
  have hcol : p.2.toNat < grid[p.1.toNat].length := by
    rw [hrect grid[p.1.toNat] hrowmem, colsOf]
    rw [colsOf] at h4
    omega
  have hcell := hb grid[p.1.toNat] hrowmem
  rw [List.all_eq_true] at hcell
  have hmem : grid[p.1.toNat][p.2.toNat] ∈ grid[p.1.toNat] :=
    List.getElem_mem hcol
  have := hcell _ hmem
  simp only [Bool.or_eq_true, beq_iff_eq] at this
  rw [cellAt, getD_of_lt grid p.1.toNat [] hrow,
    getD_of_lt grid[p.1.toNat] p.2.toNat 1 hcol]
  exact this

theorem layout_rect : ∀ row ∈ layout, row.length = colsOf layout := by decide

theorem okCell_cell {grid : List (List Nat)} {p : Pos}
    (h : okCell grid p = true) : cellAt grid p.1 p.2 = 0 := by
  rw [okCell, Bool.and_eq_true] at h
  simpa using h.2

theorem okCell_inBounds {grid : List (List Nat)} {p : Pos}
    (h : okCell grid p = true) : inBoundsB grid p = true := by
  rw [okCell, Bool.and_eq_true] at h
  exact h.1

theorem not_invalid_ok {s g : Pos}
    (h : endpointsInvalid layout s g = false) :
    okCell layout s = true ∧ okCell layout g = true := by
  have hs1 : ¬ (s.1 < 0) := by
    intro hc; rw [endpointsInvalid] at h; simp [hc] at h
  have hs2 : ¬ ((rowsOf layout : Int) ≤ s.1) := by
    intro hc; rw [endpointsInvalid] at h; simp [hc] at h
  have hs3 : ¬ (s.2 < 0) := by
    intro hc; rw [endpointsInvalid] at h; simp [hc] at h
  have hs4 : ¬ ((colsOf layout : Int) ≤ s.2) := by
    intro hc; rw [endpointsInvalid] at h; simp [hc] at h
  have hg1 : ¬ (g.1 < 0) := by
    intro hc; rw [endpointsInvalid] at h; simp [hc] at h
  have hg2 : ¬ ((rowsOf layout : Int) ≤ g.1) := by
    intro hc; rw [endpointsInvalid] at h; simp [hc] at h
  have hg3 : ¬ (g.2 < 0) := by
    intro hc; rw [endpointsInvalid] at h; simp [hc] at h
  have hg4 : ¬ ((colsOf layout : Int) ≤ g.2) := by
    intro hc; rw [endpointsInvalid] at h; simp [hc] at h
  have hsc : cellAt layout s.1 s.2 ≠ 1 := by
    intro hc; rw [endpointsInvalid] at h; simp [hc] at h
  have hgc : cellAt layout g.1 g.2 ≠ 1 := by
    intro hc; rw [endpointsInvalid] at h; simp [hc] at h
  have hins : inBoundsB layout s = true := by
    rw [inBoundsB]
    simp only [Bool.and_eq_true, decide_eq_true_eq]
    omega
  have hing : inBoundsB layout g = true := by
    rw [inBoundsB]
    simp only [Bool.and_eq_true, decide_eq_true_eq]
    omega
  constructor
  · rw [okCell, hins, Bool.true_and]
    rcases cellAt_binary layout_cells_binary hins layout_rect with h0 | h1
    · simp [h0]
    · exact absurd h1 hsc
  · rw [okCell, hing, Bool.true_and]
    rcases cellAt_binary layout_cells_binary hing layout_rect with h0 | h1
    · simp [h0]
    · exact absurd h1 hgc

theorem ok_not_invalid {s g : Pos} (hs : okCell layout s = true)
    (hg : okCell layout g = true) :
    endpointsInvalid layout s g = false := by
  obtain ⟨a1, a2, a3, a4⟩ := okCell_bounds hs
  obtain ⟨b1, b2, b3, b4⟩ := okCell_bounds hg
  have hc1 := okCell_cell hs
  have hc2 := okCell_cell hg
  rw [endpointsInvalid, hc1, hc2]
  simp only [Bool.or_eq_false_iff, decide_eq_false_iff_not, not_lt, not_le]
  refine ⟨⟨⟨⟨⟨⟨⟨⟨⟨a1, ?_⟩, a3⟩, ?_⟩, b1⟩, ?_⟩, b3⟩, ?_⟩, by simp⟩, by simp⟩
  · omega
  · omega
  · omega
  · omega

theorem endpointsInvalid_symm (grid : List (List Nat)) (a b : Pos) :
    endpointsInvalid grid a b = endpointsInvalid grid b a := by
  simp only [endpointsInvalid]
  rw [Bool.eq_iff_iff]
  simp only [Bool.or_eq_true]
  tauto

/- Top-level behavior of a_star_pathfinding on the shipped layout. -/

theorem a_star_run_eq {s g : Pos} (hne : s ≠ g)
    (hinv : ¬ endpointsInvalid layout s g = true) :
    a_star_pathfinding s g layout =
      aStarLoop layout s g (aStarFuel layout)
        { openSet := [(0, s)], cameFrom := [], gScore := [(s, 0)],
          fScore := [(s, heuristic s g)] } := by
  rw [a_star_pathfinding, if_neg hne, if_neg hinv]

theorem a_star_total (s g : Pos) :
    ∃ r, a_star_pathfinding s g layout = some r := by
  by_cases hne : s = g
  · exact ⟨[s], by rw [a_star_pathfinding, if_pos hne]⟩
  · by_cases hinv : endpointsInvalid layout s g = true
    · exact ⟨[], by rw [a_star_pathfinding, if_neg hne, if_pos hinv]⟩
    · obtain ⟨hoks, hokg⟩ := not_invalid_ok (by simpa using hinv)
      rw [a_star_run_eq hne hinv]
      exact loop_total _ _ (AInv_init hoks) (measure_init_lt hoks)

/-- C1: for walkable in-bounds endpoints connected in the 4-directional grid
graph of the layout (a connecting walk q is the hypothesis), the search
returns a non-empty path which is itself a walk from start to goal and whose
length is minimal among all connecting walks, i.e. its length minus one is
the true shortest walking distance. -/
theorem a_star_finds_shortest_path (s g : Pos)
    (hs : okCell layout s = true) (hg : okCell layout g = true)
    (q : List Pos) (hq : isPathB layout s g q = true) :
    ∃ p, a_star_pathfinding s g layout = some p ∧ p ≠ [] ∧
      isPathB layout s g p = true ∧
      ∀ r, isPathB layout s g r = true → p.length ≤ r.length := by
  by_cases hne : s = g
  · refine ⟨[s], by rw [a_star_pathfinding, if_pos hne], by simp, ?_, ?_⟩
    · rw [hne]
      simp [isPathB, chainB, hne ▸ hs]
    · intro r hr
      obtain ⟨hrnil, _⟩ := isPathB_reachN hr
      have := List.length_pos.mpr hrnil
      simp only [List.length_singleton]
      omega
  · have hinv : endpointsInvalid layout s g = false := ok_not_invalid hs hg
    obtain ⟨hqnil, hqreach⟩ := isPathB_reachN hq
    obtain ⟨n, hmin⟩ := isMinReach_exists hqreach
    rw [a_star_run_eq hne (by simp [hinv])]
    obtain ⟨p, hp, hpl, hplen⟩ :=
      loop_finds hne _ _ (AInv_init hs) (measure_init_lt hs) n hmin
    refine ⟨p, hp, pathList_ne_nil hpl, pathList_isPathB hs hpl, ?_⟩
    intro r hr
    obtain ⟨hrnil, hrreach⟩ := isPathB_reachN hr
    have hge := hmin.2 _ hrreach
    have hrpos := List.length_pos.mpr hrnil
    omega

/-- C1 witness: the concrete adjacent pair (0,1), (1,1) with the explicit
connecting walk. -/
theorem a_star_finds_shortest_path_witness :
    ∃ p, a_star_pathfinding (0, 1) (1, 1) layout = some p ∧ p ≠ [] ∧
      isPathB layout (0, 1) (1, 1) p = true ∧
      ∀ r, isPathB layout (0, 1) (1, 1) r = true → p.length ≤ r.length :=
  a_star_finds_shortest_path (0, 1) (1, 1) (by decide) (by decide)
    [(0, 1), (1, 1)] (by decide)

/-- C9 amended: every non-empty returned path begins at start, ends at goal,
and moves one cardinal step at a time; when start and goal differ every cell
on it is in-bounds and walkable (when they coincide the single returned cell
may be blocked, see the counterexample). -/
theorem a_star_path_valid (s g : Pos) (p : List Pos)
    (h : a_star_pathfinding s g layout = some p) (hnil : p ≠ []) :
    p.head? = some s ∧ p.getLast? = some g ∧
    List.Chain' (fun a b => stepAdj a b = true) p ∧
    (s ≠ g → ∀ c ∈ p, okCell layout c = true) := by
  by_cases hne : s = g
  · rw [a_star_pathfinding, if_pos hne] at h
    injection h with h
    rw [← h]
    exact ⟨rfl, by rw [hne]; rfl, by simp, fun hc => absurd hne hc⟩
  · by_cases hinv : endpointsInvalid layout s g = true
    · rw [a_star_pathfinding, if_neg hne, if_pos hinv] at h
      injection h with h
      exact absurd h.symm hnil
    · obtain ⟨hoks, hokg⟩ := not_invalid_ok (by simpa using hinv)
      rw [a_star_run_eq hne hinv] at h
      have hpl := loop_sound _ _ (AInv_init hoks) p h hnil
      exact ⟨pathList_head hpl, pathList_last hpl, pathList_chain hpl,
        fun _ => pathList_ok hoks hpl⟩

/-- C9 witness: the valid-path conclusions at a concrete run. -/
theorem a_star_path_valid_witness :
    ([(0, 1), (1, 1)] : List Pos).head? = some (0, 1) ∧
    ([(0, 1), (1, 1)] : List Pos).getLast? = some (1, 1) ∧
    List.Chain' (fun a b => stepAdj a b = true) [((0 : Int), (1 : Int)), (1, 1)] ∧
    (((0 : Int), (1 : Int)) ≠ ((1 : Int), (1 : Int)) →
      ∀ c ∈ [((0 : Int), (1 : Int)), ((1 : Int), (1 : Int))],
        okCell layout c = true) :=
  a_star_path_valid (0, 1) (1, 1) [(0, 1), (1, 1)] (by rfl) (by simp)

/- Distance-matrix symmetry. -/

theorem path_distance_eq_fin {s g : Pos} {p : List Pos}
    (h : a_star_pathfinding s g layout = some p) (hnil : p ≠ []) :
    path_distance s g = some (PDist.fin (p.length - 1)) := by
  obtain ⟨hd, tl, rfl⟩ : ∃ hd tl, p = hd :: tl := by
    cases p with
    | nil => exact absurd rfl hnil
    | cons hd tl => exact ⟨hd, tl, rfl⟩
  rw [path_distance]
  simp only [h]

theorem path_distance_eq_inf {s g : Pos}
    (h : a_star_pathfinding s g layout = some []) :
    path_distance s g = some PDist.inf := by
  rw [path_distance]
  simp only [h]

theorem path_distance_symm (a b : Pos) :
    path_distance a b = path_distance b a := by
  by_cases hab : a = b
  · rw [hab]
  · by_cases hinv : endpointsInvalid layout a b = true
    · have hinv2 : endpointsInvalid layout b a = true := by
        rw [endpointsInvalid_symm layout b a]
        exact hinv
      rw [path_distance_eq_inf
          (by rw [a_star_pathfinding, if_neg hab, if_pos hinv]),
        path_distance_eq_inf
          (by rw [a_star_pathfinding, if_neg (Ne.symm hab), if_pos hinv2])]
    · obtain ⟨hoka, hokb⟩ := not_invalid_ok (by simpa using hinv)
      have hinv2 : ¬ endpointsInvalid layout b a = true := by
        rw [endpointsInvalid_symm layout b a]
        exact hinv
      by_cases hreach : ∃ n, ReachN layout a b n
      · obtain ⟨n0, hr0⟩ := hreach
        obtain ⟨n, hmin⟩ := isMinReach_exists hr0
        have hminr : IsMinReach layout b a n :=
          ⟨reachN_rev hoka hmin.1, fun m hm => hmin.2 m (reachN_rev hokb hm)⟩
        obtain ⟨p1, hp1, hpl1, hlen1⟩ :=
          loop_finds hab _ _ (AInv_init hoka) (measure_init_lt hoka) n hmin
        obtain ⟨p2, hp2, hpl2, hlen2⟩ :=
          loop_finds (Ne.symm hab) _ _ (AInv_init hokb) (measure_init_lt hokb)
            n hminr
        rw [path_distance_eq_fin
            (by rw [a_star_run_eq hab hinv]; exact hp1) (pathList_ne_nil hpl1),
          path_distance_eq_fin
            (by rw [a_star_run_eq (Ne.symm hab) hinv2]; exact hp2)
            (pathList_ne_nil hpl2),
          hlen1, hlen2]
      · have hnone : ∀ n, ¬ ReachN layout a b n := fun n hn => hreach ⟨n, hn⟩
        have hnone2 : ∀ n, ¬ ReachN layout b a n :=
          fun n hn => hreach ⟨n, reachN_rev hokb hn⟩
        have ha : a_star_pathfinding a b layout = some [] := by
          rw [a_star_run_eq hab hinv]
          exact loop_nopath _ _ (AInv_init hoka) (measure_init_lt hoka) hnone
        have hb2 : a_star_pathfinding b a layout = some [] := by
          rw [a_star_run_eq (Ne.symm hab) hinv2]
          exact loop_nopath _ _ (AInv_init hokb) (measure_init_lt hokb) hnone2
        rw [path_distance_eq_inf ha, path_distance_eq_inf hb2]

theorem path_distance_isSome (a b : Pos) :
    (path_distance a b).isSome = true := by
  obtain ⟨r, hr⟩ := a_star_total a b
  cases r with
  | nil => rw [path_distance_eq_inf hr]; rfl
  | cons hd tl => rw [path_distance_eq_fin hr (by simp)]; rfl

theorem mapM_option_total {α β : Type} (f : α → Option β) (d : β) :
    ∀ (l : List α), (∀ x ∈ l, (f x).isSome = true) →
      l.mapM f = some (l.map (fun x => (f x).getD d)) := by
  intro l
  induction l with
  | nil => intro _; rfl
  | cons a r ih =>
    intro h
    rw [List.mapM_cons, ih (fun x hx => h x (List.mem_cons_of_mem a hx))]
    obtain ⟨b, hb⟩ := Option.isSome_iff_exists.mp (h a (List.mem_cons_self a r))
    rw [hb]
    simp [hb]

theorem getD_getD_map (locs : List Pos) (F : Pos → Pos → PDist) (i j : Nat)
    (hi : i < locs.length) (hj : j < locs.length) :
    ((locs.map (fun a => locs.map (fun b => F a b))).getD i []).getD j
        PDist.inf =
      F locs[i] locs[j] := by
  rw [getD_of_lt _ i [] (by simpa using hi)]
  rw [List.getElem_map]
  rw [getD_of_lt _ j PDist.inf (by simpa using hj)]
  rw [List.getElem_map]

/-- C8: create_distance_matrix always succeeds on the shipped layout and the
matrix is symmetric: entry (i, j) equals entry (j, i) for all in-range
indices, because shortest A* walk lengths, unreachability, and endpoint
invalidity are all symmetric on the unweighted reversible grid. -/
theorem distance_matrix_symmetric (locs : List Pos) :
    ∃ m, create_distance_matrix locs = some m ∧
      ∀ i j, i < locs.length → j < locs.length →
        (m.getD i []).getD j PDist.inf = (m.getD j []).getD i PDist.inf := by
  have hrow : ∀ a : Pos, locs.mapM (fun b => path_distance a b) =
      some (locs.map (fun b => (path_distance a b).getD PDist.inf)) :=
    fun a => mapM_option_total _ PDist.inf locs
      (fun x _ => path_distance_isSome a x)
  have hm : create_distance_matrix locs =
      some (locs.map (fun a => locs.map (fun b =>
        (path_distance a b).getD PDist.inf))) := by
    rw [create_distance_matrix, create_distance_matrix_with_pathfinding]
    rw [mapM_option_total (fun a : Pos => locs.mapM (fun b => path_distance a b))
      [] locs (fun x _ => by
        show (locs.mapM (fun b => path_distance x b)).isSome = true
        rw [hrow x]
        rfl)]
    congr 1
    refine List.map_congr_left ?_
    intro a _
    rw [hrow a]
    rfl
  refine ⟨_, hm, ?_⟩
  intro i j hi hj
  rw [getD_getD_map locs (fun a b => (path_distance a b).getD PDist.inf) i j hi hj,
    getD_getD_map locs (fun a b => (path_distance a b).getD PDist.inf) j i hj hi,
    path_distance_symm]
